import Mathlib

/-!
Verification of the winmgr core of cvterm (`lib/winmgr/window.c`): the window
tree, the leaf-only invalidation engine, the drain-then-commit paint
scheduler, and the resize synchronization entry point.  The C code is shallowly
embedded: windows form a rose tree whose nodes carry the per-window fields of
`struct window`, paths (lists of child indices) stand for window pointers, and
the manager state pairs the root tree with the aggregate invalid flag of
`struct winmgr`.  Backend (ncurses) calls are recorded as events; handler
callbacks are notification events, except for paint handlers whose
invalidation side effects are modelled explicitly for the scheduler analysis.
-/

/-- Modelled from the spec: axis-aligned integer rectangle of the Rect/Geometry
component (`rect.c` / `window.h` are not under `src/`); fields follow the
`left, top, right, bottom` layout used throughout `window.c`. -/
structure rect where
  left : Int
  top : Int
  right : Int
  bottom : Int
deriving DecidableEq, Repr

/-- Modelled from the spec: `rect_set`, filling the four fields. -/
def rect_set (l t r b : Int) : rect := ⟨l, t, r, b⟩

/-- Modelled from the spec: `rect_offset`, translating a rectangle by `(dx, dy)`. -/
def rect_offset (rc : rect) (dx dy : Int) : rect :=
  ⟨rc.left + dx, rc.top + dy, rc.right + dx, rc.bottom + dy⟩

/-- Modelled from the spec: the rectangle written by `rect_intersect`
(componentwise max of the near edges and min of the far edges). -/
def rect_inter (a b : rect) : rect :=
  ⟨max a.left b.left, max a.top b.top, min a.right b.right, min a.bottom b.bottom⟩

/-- Modelled from the spec: emptiness test deciding `rect_intersect`'s boolean
result; a rectangle is empty when it has no interior cells. -/
def rect_empty (r : rect) : Bool := r.right ≤ r.left || r.bottom ≤ r.top

/-- Modelled from the spec: `rect_union`, the bounding box of two rectangles. -/
def rect_union (a b : rect) : rect :=
  ⟨min a.left b.left, min a.top b.top, max a.right b.right, max a.bottom b.bottom⟩

/-- Modelled from the spec: `rect_equal`, componentwise equality. -/
def rect_equal (a b : rect) : Bool := a = b

/-- Per-window fields of `struct window`: public id, absolute rectangle,
visibility flag, invalid flag, handler token, and the geometry of the backing
ncurses `WINDOW` as recorded by `newwin` / `mvwin` / `wresize`. -/
structure WInfo where
  wid : Int
  rc : rect
  visible : Bool
  invalid : Bool
  hdl : Nat
  surf : rect
deriving DecidableEq, Repr

/-- The window tree: `struct window`'s `parent` / `child` / `next` links, with
the child list kept in creation order (append-at-tail). -/
inductive WTree where
  | node : WInfo → List WTree → WTree
deriving Repr

def WTree.info : WTree → WInfo
  | .node i _ => i

def WTree.children : WTree → List WTree
  | .node _ cs => cs

mutual

/-- Number of windows in a tree; used as the size bound for scheduler
termination and for structural induction. -/
def nodeCount : WTree → Nat
  | .node _ cs => 1 + nodeCountL cs

/-- Number of windows in a forest. -/
def nodeCountL : List WTree → Nat
  | [] => 0
  | c :: rest => nodeCount c + nodeCountL rest

end

mutual

/-- Number of set invalid flags in a tree. -/
def invalidCount : WTree → Nat
  | .node i cs => (if i.invalid then 1 else 0) + invalidCountL cs

/-- Number of set invalid flags in a forest. -/
def invalidCountL : List WTree → Nat
  | [] => 0
  | c :: rest => invalidCount c + invalidCountL rest

end

/-- Follow a path of child indices from a node; `some` exactly on valid paths.
A path stands for a `window *` into the tree. -/
def lookup : WTree → List Nat → Option WTree
  | t, [] => some t
  | t, k :: p =>
    match t.children.get? k with
    | some c => lookup c p
    | none => none

/-- Replace the subtree at a path by applying `f` to it; identity on invalid
paths. -/
def modifyAt : WTree → List Nat → (WTree → WTree) → WTree
  | t, [], f => f t
  | t, k :: p, f =>
    match t.children.get? k with
    | some c => WTree.node t.info (t.children.set k (modifyAt c p f))
    | none => t

/-- Infos of the nodes strictly above the target of a path, outermost (root)
first; the window's ancestor chain. -/
def ancInfos : WTree → List Nat → List WInfo
  | _, [] => []
  | t, k :: p =>
    match t.children.get? k with
    | some c => t.info :: ancInfos c p
    | none => []

/-- Invalid flag of the window at a path. -/
def invFlag (t : WTree) (q : List Nat) : Option Bool :=
  (lookup t q).map (fun w => w.info.invalid)

/-- Visibility flag of the window at a path. -/
def visFlag (t : WTree) (q : List Nat) : Option Bool :=
  (lookup t q).map (fun w => w.info.visible)

/-- Absolute rectangle of the window at a path. -/
def rcAt (t : WTree) (q : List Nat) : Option rect :=
  (lookup t q).map (fun w => w.info.rc)

/-- Whether the window at a path is a leaf (no children). -/
def leafAt (t : WTree) (q : List Nat) : Option Bool :=
  (lookup t q).map (fun w => w.children.isEmpty)

mutual

/-- Embedding of `window_invalidate_rect` (window.c:377): skip invisible
subtrees, clip the incoming damage to the window's rectangle, recurse into
children when present, and otherwise mark the leaf.  The boolean result is
true when at least one leaf was reached, i.e. exactly when the C code set
`wm->invalid` (and woke the idle hook). -/
def window_invalidate_rect : WTree → rect → WTree × Bool
  | WTree.node i cs, rc =>
    if !i.visible then (WTree.node i cs, false)
    else
      let rcT := rect_inter i.rc rc
      if rect_empty rcT then (WTree.node i cs, false)
      else
        match cs with
        | [] => (WTree.node { i with invalid := true } [], true)
        | c :: rest =>
          let r := invalidate_children (c :: rest) rcT
          (WTree.node i r.1, r.2)

/-- Recursion of `window_invalidate_rect` over a child list. -/
def invalidate_children : List WTree → rect → List WTree × Bool
  | [], _ => ([], false)
  | c :: rest, rc =>
    let r1 := window_invalidate_rect c rc
    let r2 := invalidate_children rest rc
    (r1.1 :: r2.1, r1.2 || r2.2)

end

/-- Embedding of the ancestor-clipping loop of `window_invalidate`
(window.c:410): walk the ancestor chain innermost first, aborting on an
invisible ancestor or an empty intersection. -/
def clip_ancestors : rect → List WInfo → Option rect
  | rc, [] => some rc
  | rc, a :: rest =>
    if !a.visible then none
    else
      let rcT := rect_inter rc a.rc
      if rect_empty rcT then none else clip_ancestors rcT rest

/-- Run `window_invalidate_rect` on the subtree at a path, propagating the
marked flag out. -/
def invalidate_at : WTree → List Nat → rect → WTree × Bool
  | t, [], rc => window_invalidate_rect t rc
  | t, k :: p, rc =>
    match t.children.get? k with
    | some c =>
      let r := invalidate_at c p rc
      (WTree.node t.info (t.children.set k r.1), r.2)
    | none => (t, false)

/-- Manager state: the root window plus `struct winmgr`'s aggregate invalid
flag. -/
structure MState where
  root : WTree
  invalid : Bool
deriving Repr

/-- Embedding of `window_invalidate` (window.c:401) at a given path: abort if
the window is invisible, clip the window's rectangle through its ancestor
chain (aborting on an invisible ancestor or an empty intersection), then push
the clipped rectangle down the window's own subtree.  The aggregate flag picks
up whether any leaf was marked. -/
def winmgr_invalidate_path (s : MState) (p : List Nat) : MState :=
  match lookup s.root p with
  | none => s
  | some w =>
    if !w.info.visible then s
    else
      match clip_ancestors w.info.rc (ancInfos s.root p).reverse with
      | none => s
      | some rcT =>
        let r := invalidate_at s.root p rcT
        ⟨r.1, s.invalid || r.2⟩

/-- Public `window_invalidate`: a `none` window names the root, as in the C
`if (w == NULL) w = wm->root`. -/
def winmgr_invalidate (s : MState) (p : Option (List Nat)) : MState :=
  winmgr_invalidate_path s (p.getD [])

/-- Backend (ncurses) and notification events emitted by the embedded
operations, in program order. -/
inductive Ev where
  | newwinE (rows cols y x : Int)
  | mvwinE (y x : Int)
  | wresizeE (rows cols : Int)
  | resizetermE (rows cols : Int)
  | wnoutrefreshE
  | doupdateE
  | handlerE (h : Nat) (msg : Nat)
deriving DecidableEq, Repr

/-- Message id of `WM_CREATE`. -/
def WM_CREATE : Nat := 1

/-- Message id of `WM_DESTROY`. -/
def WM_DESTROY : Nat := 2

/-- Message id of `WM_PAINT`. -/
def WM_PAINT : Nat := 3

/-- Message id of `WM_POSCHANGED`. -/
def WM_POSCHANGED : Nat := 4

/-- Surface geometry after `wresize(rows, cols)`: size changes, origin stays. -/
def resizeSurf (s : rect) (rows cols : Int) : rect :=
  ⟨s.left, s.top, s.left + cols, s.top + rows⟩

/-- Surface geometry after `mvwin(y, x)`: origin changes, size stays. -/
def moveSurf (s : rect) (y x : Int) : rect :=
  ⟨x, y, x + (s.right - s.left), y + (s.bottom - s.top)⟩

/-- Embedding of `window_set_visible` (window.c:356).  Hiding a visible window
clears its flag and then invalidates the parent's full rectangle downward from
the parent (no clipping by the parent's own ancestors); showing a hidden
window sets the flag and invalidates the window itself through the
ancestor-clipped path.  Other calls are no-ops. -/
def window_set_visible (s : MState) (p : List Nat) (visible : Bool) : MState :=
  match lookup s.root p with
  | none => s
  | some w =>
    if !visible then
      if w.info.visible then
        let t1 := modifyAt s.root p
          (fun t => WTree.node { t.info with visible := false } t.children)
        if p = [] then ⟨t1, s.invalid⟩
        else
          match lookup t1 p.dropLast with
          | some par =>
            let r := invalidate_at t1 p.dropLast par.info.rc
            ⟨r.1, s.invalid || r.2⟩
          | none => ⟨t1, s.invalid⟩
      else s
    else
      if !w.info.visible then
        let t1 := modifyAt s.root p
          (fun t => WTree.node { t.info with visible := true } t.children)
        winmgr_invalidate_path ⟨t1, s.invalid⟩ p
      else s

/-- Embedding of `window_create` + `new_window` (window.c:256, 277).  A `none`
parent names the root.  The requested parent-relative rectangle is offset by
the parent's origin and intersected with the root's rectangle to give the
stored rectangle; `newwin`, however, is called with the rows/cols/y/x of the
unclipped parent-relative rectangle, exactly as in the C code.  The new node
is appended at the tail of the parent's child list, `WM_CREATE` is delivered,
and the window is invalidated.  Result: new state, events, path of the new
window. -/
def window_create (s : MState) (parent : Option (List Nat)) (rc : rect)
    (h : Nat) (wid : Int) : MState × List Ev × List Nat :=
  let pp := parent.getD []
  match lookup s.root pp with
  | none => (s, [], [])
  | some par =>
    let rcT := rect_inter (rect_offset rc par.info.rc.left par.info.rc.top)
      s.root.info.rc
    let surf := rc
    let newIdx := par.children.length
    let w : WTree := WTree.node ⟨wid, rcT, true, false, h, surf⟩ []
    let t1 := modifyAt s.root pp (fun t => WTree.node t.info (t.children ++ [w]))
    let s2 := winmgr_invalidate_path ⟨t1, s.invalid⟩ (pp ++ [newIdx])
    (s2,
     [Ev.newwinE (rc.bottom - rc.top) (rc.right - rc.left) rc.top rc.left,
      Ev.handlerE h WM_CREATE],
     pp ++ [newIdx])

/-- Embedding of `window_rect` (window.c:517): the window's rectangle
translated into its parent's coordinate space (identity for the root); a
`none` window names the root. -/
def window_rect (s : MState) (p : Option (List Nat)) : Option rect :=
  let pp := p.getD []
  match lookup s.root pp with
  | none => none
  | some w =>
    if pp = [] then some w.info.rc
    else
      match lookup s.root pp.dropLast with
      | some par =>
        some (rect_offset w.info.rc (-par.info.rc.left) (-par.info.rc.top))
      | none => some w.info.rc

/-- Embedding of `window_find_window` (window.c:502): linear scan of the
immediate children in creation order for the first id match; a `none` window
names the root. -/
def window_find_window (s : MState) (p : Option (List Nat)) (wid : Int) :
    Option (List Nat) :=
  let pp := p.getD []
  match lookup s.root pp with
  | none => none
  | some w =>
    match w.children.findIdx? (fun c => c.info.wid = wid) with
    | some k => some (pp ++ [k])
    | none => none

/-- Embedding of `window_set_handler` (window.c:345): swap the handler token,
returning the old one; a `none` window names the root. -/
def window_set_handler (s : MState) (p : Option (List Nat)) (h : Nat) :
    MState × Nat :=
  let pp := p.getD []
  match lookup s.root pp with
  | none => (s, 0)
  | some w =>
    (⟨modifyAt s.root pp
        (fun t => WTree.node { t.info with hdl := h } t.children), s.invalid⟩,
     w.info.hdl)

/-- Embedding of `window_set_pos` (window.c:432).  Converts to screen
coordinates; returns success with no effect when the absolute rectangle is
unchanged; otherwise clips non-root windows to the root's rectangle, issues
the backend pre-shrink / move / resize calls, stores the new rectangle,
invalidates the union of the old and new rectangles against the parent (or
the root itself), and notifies the handler.  Result: new state, events,
success flag (backend calls always succeed in the model). -/
def window_set_pos (s : MState) (p : List Nat) (rc : rect) :
    MState × List Ev × Bool :=
  match lookup s.root p with
  | none => (s, [], false)
  | some w =>
    let rc_new :=
      if p = [] then rc
      else
        match lookup s.root p.dropLast with
        | some par => rect_offset rc par.info.rc.left par.info.rc.top
        | none => rc
    if w.info.rc = rc_new then (s, [], true)
    else
      let rc_new := if p = [] then rc_new else rect_inter rc_new s.root.info.rc
      let height_new := rc_new.bottom - rc_new.top
      let width_new := rc_new.right - rc_new.left
      let moved := rc_new.left ≠ w.info.rc.left || rc_new.top ≠ w.info.rc.top
      let width_adj := max 0 ((w.info.rc.left + width_new) - s.root.info.rc.right)
      let height_adj := max 0 ((w.info.rc.top + height_new) - s.root.info.rc.bottom)
      let preEvs :=
        if moved then
          (if width_adj ≠ 0 || height_adj ≠ 0 then
            [Ev.wresizeE (height_new - height_adj) (width_new - width_adj)]
           else []) ++ [Ev.mvwinE rc_new.top rc_new.left]
        else []
      let surf1 :=
        if moved then
          moveSurf
            (if width_adj ≠ 0 || height_adj ≠ 0 then
              resizeSurf w.info.surf (height_new - height_adj) (width_new - width_adj)
             else w.info.surf)
            rc_new.top rc_new.left
        else w.info.surf
      let surf2 := resizeSurf surf1 height_new width_new
      let t1 := modifyAt s.root p
        (fun t => WTree.node { t.info with rc := rc_new, surf := surf2 } t.children)
      let rc_invalid := rect_union w.info.rc rc_new
      let r :=
        if p = [] then window_invalidate_rect t1 rc_invalid
        else invalidate_at t1 p.dropLast rc_invalid
      (⟨r.1, s.invalid || r.2⟩,
       preEvs ++ [Ev.wresizeE height_new width_new, Ev.handlerE w.info.hdl WM_POSCHANGED],
       true)

/-- Embedding of `winmgr_init`'s window-tree part (window.c:43): the root
window is bound to the full terminal rectangle with `stdscr` as its surface,
then `new_window` invalidates it, setting the aggregate flag. -/
def winmgr_init (cols rows : Int) : MState :=
  let rootT : WTree :=
    WTree.node ⟨0, ⟨0, 0, cols, rows⟩, true, false, 0, ⟨0, 0, cols, rows⟩⟩ []
  winmgr_invalidate_path ⟨rootT, false⟩ []

mutual

/-- Embedding of `find_invalid` (window.c:191): depth-first search for the
first invalid leaf; invisible subtrees are skipped, and a window with
children is never returned (its own flag is not even examined). -/
def find_invalid : WTree → Option (List Nat)
  | WTree.node i cs =>
    if !i.visible then none
    else
      match cs with
      | [] => if i.invalid then some [] else none
      | c :: rest => find_invalid_list (c :: rest) 0

/-- Recursion of `find_invalid` over a child list, tracking child indices. -/
def find_invalid_list : List WTree → Nat → Option (List Nat)
  | [], _ => none
  | c :: rest, k =>
    match find_invalid c with
    | some p => some (k :: p)
    | none => find_invalid_list rest (k + 1)

end

/-- Clear the invalid flag of a node (the `w->invalid = 0` before a paint). -/
def clearInvalid (t : WTree) : WTree :=
  WTree.node { t.info with invalid := false } t.children

/-- Apply a paint handler's invalidation side effects: each path in the list
is passed to `window_invalidate`. -/
def applyEffects (s : MState) (ps : List (List Nat)) : MState :=
  ps.foldl winmgr_invalidate_path s

/-- Scheduler state during a drain: manager state plus the count of paint
calls made so far (indexing into the handler behaviour). -/
structure UState where
  ms : MState
  cnt : Nat

/-- Embedding of the `winmgr_update` loop (window.c:215), fuelled.  `h k`
gives the invalidations performed by the `k`-th paint callback of the drain.
While the aggregate flag is set: search for an invalid leaf; if found, clear
its flag, run the paint callback's invalidations, and continue; otherwise
issue `doupdate`, clear the aggregate flag, and re-test the loop condition.
Accumulators count paint calls and `doupdate` commits; `none` means the fuel
ran out before the loop exited. -/
def winmgr_update_go (h : Nat → List (List Nat)) :
    Nat → UState → Nat → Nat → Option (UState × Nat × Nat)
  | 0, u, pa, co => if u.ms.invalid then none else some (u, pa, co)
  | fuel + 1, u, pa, co =>
    if u.ms.invalid then
      match find_invalid u.ms.root with
      | some p =>
        let t1 := modifyAt u.ms.root p clearInvalid
        let s1 := applyEffects ⟨t1, u.ms.invalid⟩ (h u.cnt)
        winmgr_update_go h fuel ⟨s1, u.cnt + 1⟩ (pa + 1) co
      | none =>
        winmgr_update_go h fuel ⟨⟨u.ms.root, false⟩, u.cnt⟩ pa (co + 1)
    else some (u, pa, co)

/-- Resize entry-point state: manager state plus the `s_pipe_signaled` guard. -/
structure RState where
  ms : MState
  pipeSignaled : Bool

/-- Embedding of `winmgr_resize` (window.c:151): drain the pending pipe byte,
query the terminal size (`none` models an `ioctl` failure), return
immediately if the query failed or the size equals the root rectangle's size;
otherwise `resizeterm`, reposition the root to the new full-screen rectangle,
and force a drain (`none` overall if the drain's fuel runs out). -/
def winmgr_resize (h : Nat → List (List Nat)) (fuel : Nat) (s : RState)
    (qsize : Option (Int × Int)) : Option (RState × List Ev) :=
  match qsize with
  | none => some (⟨s.ms, false⟩, [])
  | some (cols, rows) =>
    let width := s.ms.root.info.rc.right - s.ms.root.info.rc.left
    let height := s.ms.root.info.rc.bottom - s.ms.root.info.rc.top
    if width = cols ∧ height = rows then some (⟨s.ms, false⟩, [])
    else
      let r := window_set_pos s.ms [] ⟨0, 0, cols, rows⟩
      match winmgr_update_go h fuel ⟨r.1, 0⟩ 0 0 with
      | some (u, _, co) =>
        some (⟨u.ms, false⟩,
          Ev.resizetermE rows cols :: r.2.1 ++ List.replicate co Ev.doupdateE)
      | none => none

/-! Generic list index lemmas used by the path machinery. -/

theorem get_set_same {α : Type} : ∀ (l : List α) (k : Nat) (c x : α),
    l.get? k = some c → (l.set k x).get? k = some x := by
  intro l
  induction l with
  | nil => intro k c x h; simp [List.get?] at h
  | cons a rest ih =>
    intro k c x h
    cases k with
    | zero => simp [List.set, List.get?]
    | succ k => simpa [List.set, List.get?] using ih k c x (by simpa [List.get?] using h)

theorem get_set_other {α : Type} : ∀ (l : List α) (k j : Nat) (x : α),
    j ≠ k → (l.set k x).get? j = l.get? j := by
  intro l
  induction l with
  | nil => intro k j x _; simp [List.set]
  | cons a rest ih =>
    intro k j x hne
    cases k with
    | zero =>
      cases j with
      | zero => exact absurd rfl hne
      | succ j => simp [List.set, List.get?]
    | succ k =>
      cases j with
      | zero => simp [List.set, List.get?]
      | succ j => simpa [List.set, List.get?] using ih k j x (fun h => hne (by rw [h]))

/-! Rectangle lemmas. -/

theorem rect_inter_comm (a b : rect) : rect_inter a b = rect_inter b a := by
  simp [rect_inter, max_comm, min_comm]

theorem rect_empty_inter_mono (a b : rect) :
    rect_empty a = true → rect_empty (rect_inter a b) = true := by
  simp only [rect_empty, rect_inter, Bool.or_eq_true, decide_eq_true_eq]
  intro h
  rcases h with h | h
  · left; exact le_trans (min_le_left _ _) (le_trans h (le_max_left _ _))
  · right; exact le_trans (min_le_left _ _) (le_trans h (le_max_left _ _))

theorem rect_offset_cancel (rc : rect) (a b : Int) :
    rect_offset (rect_offset rc (-a) (-b)) a b = rc := by
  simp [rect_offset]

/-! The `eraseInv` machinery: clearing every invalid flag yields the part of a
tree that the invalidation engine never changes. -/

mutual

/-- A tree with every invalid flag cleared; two trees with the same `eraseInv`
image differ at most in their invalid flags. -/
def eraseInv : WTree → WTree
  | WTree.node i cs => WTree.node { i with invalid := false } (eraseInvL cs)

/-- Forest version of `eraseInv`. -/
def eraseInvL : List WTree → List WTree
  | [] => []
  | c :: rest => eraseInv c :: eraseInvL rest

end

theorem eraseInvL_get : ∀ (cs : List WTree) (k : Nat),
    (eraseInvL cs).get? k = (cs.get? k).map eraseInv := by
  intro cs
  induction cs with
  | nil => intro k; simp [eraseInvL]
  | cons c rest ih =>
    intro k
    cases k with
    | zero => simp [eraseInvL, List.get?]
    | succ k => simpa [eraseInvL, List.get?] using ih k

theorem eraseInv_children (t : WTree) : (eraseInv t).children = eraseInvL t.children := by
  cases t; rfl

theorem eraseInv_info (t : WTree) : (eraseInv t).info = { t.info with invalid := false } := by
  cases t; rfl

theorem lookup_eraseInv : ∀ (q : List Nat) (t : WTree),
    lookup (eraseInv t) q = (lookup t q).map eraseInv := by
  intro q
  induction q with
  | nil => intro t; simp [lookup]
  | cons k p ih =>
    intro t
    simp only [lookup, eraseInv_children, eraseInvL_get]
    cases h : t.children.get? k with
    | none => simp
    | some c => simpa using ih c

theorem eraseInv_eq_rc {a b : WTree} (h : eraseInv a = eraseInv b) :
    a.info.rc = b.info.rc := by
  cases a with
  | node ia ca =>
    cases b with
    | node ib cb =>
      simp only [eraseInv, WTree.node.injEq, WInfo.mk.injEq] at h
      simpa [WTree.info] using h.1.2.1

theorem eraseInv_eq_visible {a b : WTree} (h : eraseInv a = eraseInv b) :
    a.info.visible = b.info.visible := by
  cases a with
  | node ia ca =>
    cases b with
    | node ib cb =>
      simp only [eraseInv, WTree.node.injEq, WInfo.mk.injEq] at h
      simpa [WTree.info] using h.1.2.2.1

theorem eraseInvL_nil_iff : ∀ cs : List WTree, eraseInvL cs = [] ↔ cs = [] := by
  intro cs; cases cs <;> simp [eraseInvL]

theorem eraseInv_eq_leaf {a b : WTree} (h : eraseInv a = eraseInv b) :
    a.children.isEmpty = b.children.isEmpty := by
  cases a with
  | node ia ca =>
    cases b with
    | node ib cb =>
      simp only [eraseInv, WTree.node.injEq] at h
      cases ca with
      | nil =>
        have := h.2
        simp only [eraseInvL] at this
        have : cb = [] := by
          have h2 := this.symm
          exact (eraseInvL_nil_iff cb).mp h2
        simp [WTree.children, this]
      | cons x xs =>
        cases cb with
        | nil =>
          have := h.2
          simp [eraseInvL] at this
        | cons y ys => simp [WTree.children]

theorem option_map_eraseInv_congr {α : Type} {o1 o2 : Option WTree}
    (h : o1.map eraseInv = o2.map eraseInv) (f : WTree → α)
    (hf : ∀ a b, eraseInv a = eraseInv b → f a = f b) : o1.map f = o2.map f := by
  cases o1 with
  | none => cases o2 with
    | none => rfl
    | some b => simp at h
  | some a =>
    cases o2 with
    | none => simp at h
    | some b =>
      simp only [Option.map_some'] at h ⊢
      exact congrArg some (hf a b (by injection h))

theorem nodeCount_pos : ∀ t : WTree, 1 ≤ nodeCount t := by
  intro t; cases t; simp [nodeCount]

theorem nodeCount_mem_le : ∀ (cs : List WTree) (c : WTree), c ∈ cs →
    nodeCount c ≤ nodeCountL cs := by
  intro cs
  induction cs with
  | nil => intro c h; simp at h
  | cons a rest ih =>
    intro c h
    rcases List.mem_cons.mp h with h | h
    · subst h; simp [nodeCountL]
    · have := ih c h; simp [nodeCountL]; omega

theorem nodeCount_get_lt : ∀ (i : WInfo) (cs : List WTree) (k : Nat) (c : WTree),
    cs.get? k = some c → nodeCount c < nodeCount (WTree.node i cs) := by
  intro i cs k c h
  have hm : c ∈ cs := List.get?_mem h
  have := nodeCount_mem_le cs c hm
  simp [nodeCount]; omega

theorem eraseInvL_congr : ∀ (cs : List WTree) (rc : rect),
    (∀ c ∈ cs, eraseInv (window_invalidate_rect c rc).1 = eraseInv c) →
    eraseInvL (invalidate_children cs rc).1 = eraseInvL cs := by
  intro cs rc
  induction cs with
  | nil => intro _; simp [invalidate_children, eraseInvL]
  | cons c rest ih =>
    intro h
    simp only [invalidate_children, eraseInvL]
    rw [h c (List.mem_cons_self c rest), ih (fun x hx => h x (List.mem_cons_of_mem c hx))]

theorem info_node (i : WInfo) (cs : List WTree) : (WTree.node i cs).info = i := rfl

theorem children_node (i : WInfo) (cs : List WTree) : (WTree.node i cs).children = cs := rfl

theorem window_invalidate_rect_node (i : WInfo) (cs : List WTree) (rc : rect) :
    window_invalidate_rect (WTree.node i cs) rc =
      if i.visible = false then (WTree.node i cs, false)
      else if rect_empty (rect_inter i.rc rc) = true then (WTree.node i cs, false)
      else
        match cs with
        | [] => (WTree.node { i with invalid := true } [], true)
        | c :: rest =>
          (WTree.node i (invalidate_children (c :: rest) (rect_inter i.rc rc)).1,
           (invalidate_children (c :: rest) (rect_inter i.rc rc)).2) := by
  rw [window_invalidate_rect.eq_def]
  rcases h : i.visible with _ | _ <;> simp [h]

theorem invalidate_children_nil (rc : rect) : invalidate_children [] rc = ([], false) := by
  rw [invalidate_children.eq_def]

theorem invalidate_children_cons (c : WTree) (rest : List WTree) (rc : rect) :
    invalidate_children (c :: rest) rc =
      ((window_invalidate_rect c rc).1 :: (invalidate_children rest rc).1,
       (window_invalidate_rect c rc).2 || (invalidate_children rest rc).2) := by
  rw [invalidate_children.eq_def]

theorem find_invalid_node (i : WInfo) (cs : List WTree) :
    find_invalid (WTree.node i cs) =
      if i.visible = false then none
      else
        match cs with
        | [] => if i.invalid then some [] else none
        | c :: rest => find_invalid_list (c :: rest) 0 := by
  rw [find_invalid.eq_def]
  rcases h : i.visible with _ | _ <;> simp [h]

theorem find_invalid_list_nil (k : Nat) : find_invalid_list [] k = none := by
  rw [find_invalid_list.eq_def]

theorem find_invalid_list_cons (c : WTree) (rest : List WTree) (k : Nat) :
    find_invalid_list (c :: rest) k =
      (match find_invalid c with
       | some p => some (k :: p)
       | none => find_invalid_list rest (k + 1)) := by
  rw [find_invalid_list.eq_def]

theorem nodeCount_node (i : WInfo) (cs : List WTree) :
    nodeCount (WTree.node i cs) = 1 + nodeCountL cs := by
  rw [nodeCount.eq_def]

theorem invalidCount_node (i : WInfo) (cs : List WTree) :
    invalidCount (WTree.node i cs) = (if i.invalid then 1 else 0) + invalidCountL cs := by
  rw [invalidCount.eq_def]

theorem eraseInv_node (i : WInfo) (cs : List WTree) :
    eraseInv (WTree.node i cs) = WTree.node { i with invalid := false } (eraseInvL cs) := by
  rw [eraseInv.eq_def]

theorem eraseInv_invalidate_rect_aux : ∀ (n : Nat) (t : WTree), nodeCount t ≤ n →
    ∀ rc, eraseInv (window_invalidate_rect t rc).1 = eraseInv t := by
  intro n
  induction n with
  | zero => intro t h _; have := nodeCount_pos t; omega
  | succ n ih =>
    intro t h rc
    cases t with
    | node i cs =>
      rw [window_invalidate_rect_node]
      by_cases hv : i.visible = false
      · simp [hv]
      · by_cases he : rect_empty (rect_inter i.rc rc) = true
        · rw [if_neg hv, if_pos he]
        · rw [if_neg hv, if_neg he]
          cases cs with
          | nil => simp [eraseInv_node, eraseInvL]
          | cons c rest =>
            have hrec : eraseInvL (invalidate_children (c :: rest) (rect_inter i.rc rc)).1
                = eraseInvL (c :: rest) := by
              apply eraseInvL_congr
              intro x hx
              have h1 := nodeCount_mem_le (c :: rest) x hx
              rw [nodeCount_node] at h
              exact ih x (by omega) _
            simp only [eraseInv_node, WTree.node.injEq, true_and]
            exact hrec

theorem eraseInv_invalidate_rect (t : WTree) (rc : rect) :
    eraseInv (window_invalidate_rect t rc).1 = eraseInv t :=
  eraseInv_invalidate_rect_aux (nodeCount t) t (Nat.le_refl _) rc

theorem eraseInvL_set : ∀ (cs : List WTree) (k : Nat) (c x : WTree),
    cs.get? k = some c → eraseInv x = eraseInv c →
    eraseInvL (cs.set k x) = eraseInvL cs := by
  intro cs
  induction cs with
  | nil => intro k c x h _; simp [List.get?] at h
  | cons a rest ih =>
    intro k c x h hx
    cases k with
    | zero =>
      simp only [List.get?] at h
      injection h with h
      simp [List.set, eraseInvL, hx, h]
    | succ k =>
      simp only [List.get?] at h
      simp [List.set, eraseInvL, ih k c x h hx]

theorem eraseInv_invalidate_at : ∀ (p : List Nat) (t : WTree) (rc : rect),
    eraseInv (invalidate_at t p rc).1 = eraseInv t := by
  intro p
  induction p with
  | nil => intro t rc; exact eraseInv_invalidate_rect t rc
  | cons k p ih =>
    intro t rc
    cases t with
    | node i cs =>
      simp only [invalidate_at, children_node, info_node]
      cases h : cs.get? k with
      | none => rfl
      | some c =>
        simp only [eraseInv_node, WTree.node.injEq, true_and]
        exact eraseInvL_set cs k c _ h (ih c rc)

theorem visFlag_of_eraseInv_eq {t1 t2 : WTree} (h : eraseInv t1 = eraseInv t2)
    (q : List Nat) : visFlag t1 q = visFlag t2 q := by
  have hm : (lookup t1 q).map eraseInv = (lookup t2 q).map eraseInv := by
    rw [← lookup_eraseInv, ← lookup_eraseInv, h]
  exact option_map_eraseInv_congr hm _ (fun a b hab => eraseInv_eq_visible hab)

theorem rcAt_of_eraseInv_eq {t1 t2 : WTree} (h : eraseInv t1 = eraseInv t2)
    (q : List Nat) : rcAt t1 q = rcAt t2 q := by
  have hm : (lookup t1 q).map eraseInv = (lookup t2 q).map eraseInv := by
    rw [← lookup_eraseInv, ← lookup_eraseInv, h]
  exact option_map_eraseInv_congr hm _ (fun a b hab => eraseInv_eq_rc hab)

theorem leafAt_of_eraseInv_eq {t1 t2 : WTree} (h : eraseInv t1 = eraseInv t2)
    (q : List Nat) : leafAt t1 q = leafAt t2 q := by
  have hm : (lookup t1 q).map eraseInv = (lookup t2 q).map eraseInv := by
    rw [← lookup_eraseInv, ← lookup_eraseInv, h]
  exact option_map_eraseInv_congr hm _ (fun a b hab => eraseInv_eq_leaf hab)

/-! Declarative characterization of the damage walk: which leaves get marked. -/

/-- Infos of the nodes along a path, from the start node down to the target,
both included (start node only, on an invalid path). -/
def infosAlong : WTree → List Nat → List WInfo
  | t, [] => [t.info]
  | t, k :: p =>
    match t.children.get? k with
    | some c => t.info :: infosAlong c p
    | none => [t.info]

/-- Intersection of a damage rectangle with every rectangle along a path. -/
def clipFold (rc : rect) (l : List WInfo) : rect :=
  l.foldl (fun r a => rect_inter r a.rc) rc

/-- Whether `window_invalidate_rect` started at `t` with damage `rc` marks the
window at relative path `q`: the target must be a leaf, every window along the
path (target included) visible, and the damage clipped through every
rectangle along the path nonempty. -/
def marksLeafB (t : WTree) (rc : rect) (q : List Nat) : Bool :=
  match lookup t q with
  | none => false
  | some w =>
    w.children.isEmpty && (infosAlong t q).all (fun a => a.visible) &&
      !rect_empty (clipFold rc (infosAlong t q))

/-- Strip a prefix from a path: `some` of the remainder when `pre` is an
initial segment of `q`, else `none`. -/
def stripPre : List Nat → List Nat → Option (List Nat)
  | [], q => some q
  | _ :: _, [] => none
  | a :: p, b :: q => if a = b then stripPre p q else none

theorem infosAlong_head : ∀ (t : WTree) (q : List Nat),
    ∃ l, infosAlong t q = t.info :: l := by
  intro t q
  cases q with
  | nil => exact ⟨[], rfl⟩
  | cons k p =>
    simp only [infosAlong]
    cases t.children.get? k with
    | some c => exact ⟨_, rfl⟩
    | none => exact ⟨[], rfl⟩

theorem clipFold_cons (rc : rect) (a : WInfo) (l : List WInfo) :
    clipFold rc (a :: l) = clipFold (rect_inter rc a.rc) l := rfl

theorem clipFold_empty_mono : ∀ (l : List WInfo) (rc : rect),
    rect_empty rc = true → rect_empty (clipFold rc l) = true := by
  intro l
  induction l with
  | nil => intro rc h; exact h
  | cons a rest ih =>
    intro rc h
    rw [clipFold_cons]
    exact ih _ (rect_empty_inter_mono rc a.rc h)

theorem marksLeafB_invisible (i : WInfo) (cs : List WTree) (rc : rect)
    (q : List Nat) (hv : i.visible = false) :
    marksLeafB (WTree.node i cs) rc q = false := by
  cases hlk : lookup (WTree.node i cs) q with
  | none => simp [marksLeafB, hlk]
  | some w =>
    obtain ⟨l, hl⟩ := infosAlong_head (WTree.node i cs) q
    simp [marksLeafB, hlk, hl, info_node, hv]

theorem marksLeafB_empty (i : WInfo) (cs : List WTree) (rc : rect)
    (q : List Nat) (he : rect_empty (rect_inter i.rc rc) = true) :
    marksLeafB (WTree.node i cs) rc q = false := by
  cases hlk : lookup (WTree.node i cs) q with
  | none => simp [marksLeafB, hlk]
  | some w =>
    obtain ⟨l, hl⟩ := infosAlong_head (WTree.node i cs) q
    have hfold : rect_empty (clipFold rc (infosAlong (WTree.node i cs) q)) = true := by
      rw [hl, info_node, clipFold_cons]
      exact clipFold_empty_mono l _ (by rw [rect_inter_comm]; exact he)
    simp [marksLeafB, hlk, hfold]

theorem invalidate_children_get : ∀ (cs : List WTree) (rc : rect) (k : Nat),
    (invalidate_children cs rc).1.get? k =
      (cs.get? k).map (fun c => (window_invalidate_rect c rc).1) := by
  intro cs
  induction cs with
  | nil => intro rc k; simp [invalidate_children_nil]
  | cons c rest ih =>
    intro rc k
    rw [invalidate_children_cons]
    cases k with
    | zero => simp [List.get?]
    | succ k => simpa [List.get?] using ih rc k

theorem lookup_cons (t : WTree) (k : Nat) (p : List Nat) (c : WTree)
    (hk : t.children.get? k = some c) : lookup t (k :: p) = lookup c p := by
  rw [lookup, hk]

theorem lookup_cons_none (t : WTree) (k : Nat) (p : List Nat)
    (hk : t.children.get? k = none) : lookup t (k :: p) = none := by
  rw [lookup, hk]

theorem infosAlong_cons_some (t : WTree) (k : Nat) (p : List Nat) (c : WTree)
    (hk : t.children.get? k = some c) :
    infosAlong t (k :: p) = t.info :: infosAlong c p := by
  rw [infosAlong, hk]

theorem invFlag_cons (i : WInfo) (cs : List WTree) (k : Nat) (c : WTree)
    (p : List Nat) (hk : cs.get? k = some c) :
    invFlag (WTree.node i cs) (k :: p) = invFlag c p := by
  unfold invFlag
  rw [lookup_cons (WTree.node i cs) k p c (by rw [children_node]; exact hk)]

theorem invFlag_cons_none (i : WInfo) (cs : List WTree) (k : Nat)
    (p : List Nat) (hk : cs.get? k = none) :
    invFlag (WTree.node i cs) (k :: p) = none := by
  unfold invFlag
  rw [lookup_cons_none (WTree.node i cs) k p (by rw [children_node]; exact hk)]
  rfl

theorem marksLeafB_step (i : WInfo) (cs : List WTree) (k : Nat) (c : WTree)
    (rc : rect) (p : List Nat) (hv : i.visible = true) (hk : cs.get? k = some c) :
    marksLeafB (WTree.node i cs) rc (k :: p) = marksLeafB c (rect_inter i.rc rc) p := by
  have hlk : lookup (WTree.node i cs) (k :: p) = lookup c p :=
    lookup_cons _ k p c (by rw [children_node]; exact hk)
  have hinfos : infosAlong (WTree.node i cs) (k :: p) = i :: infosAlong c p := by
    rw [infosAlong_cons_some _ k p c (by rw [children_node]; exact hk), info_node]
  cases hw : lookup c p with
  | none => simp [marksLeafB, hlk, hw]
  | some w =>
    simp only [marksLeafB, hlk, hw, hinfos, List.all_cons, hv, Bool.true_and,
      clipFold_cons]
    rw [rect_inter_comm rc i.rc]

theorem invFlag_invalidate_rect_aux : ∀ (n : Nat) (t : WTree), nodeCount t ≤ n →
    ∀ (rc : rect) (q : List Nat),
    invFlag (window_invalidate_rect t rc).1 q =
      (invFlag t q).map (fun b => b || marksLeafB t rc q) := by
  intro n
  induction n with
  | zero => intro t h; have := nodeCount_pos t; omega
  | succ n ih =>
    intro t h rc q
    cases t with
    | node i cs =>
      rw [window_invalidate_rect_node]
      by_cases hv : i.visible = false
      · rw [if_pos hv]
        cases hlk : invFlag (WTree.node i cs) q with
        | none => simp [hlk]
        | some b => simp [hlk, marksLeafB_invisible i cs rc q hv]
      · have hv2 : i.visible = true := by revert hv; cases i.visible <;> simp
        rw [if_neg hv]
        by_cases he : rect_empty (rect_inter i.rc rc) = true
        · rw [if_pos he]
          cases hlk : invFlag (WTree.node i cs) q with
          | none => simp [hlk]
          | some b => simp [hlk, marksLeafB_empty i cs rc q he]
        · rw [if_neg he]
          cases cs with
          | nil =>
            cases q with
            | nil =>
              have hm : marksLeafB (WTree.node i ([] : List WTree)) rc [] = true := by
                simp only [marksLeafB, lookup, infosAlong]
                simp only [children_node, info_node, List.isEmpty_nil, List.all_cons,
                  List.all_nil, hv2, Bool.and_true, Bool.true_and, clipFold_cons]
                have hne : rect_empty (clipFold (rect_inter rc i.rc) []) = false := by
                  simp only [clipFold, List.foldl_nil]
                  rw [rect_inter_comm]
                  revert he
                  cases rect_empty (rect_inter i.rc rc) <;> simp
                simp [hne]
              simp [invFlag, lookup, hm, info_node]
            | cons k p =>
              have h1 : invFlag
                  (WTree.node { i with invalid := true } ([] : List WTree)) (k :: p)
                  = none := invFlag_cons_none _ _ k p (by simp [List.get?])
              have h2 : invFlag (WTree.node i ([] : List WTree)) (k :: p) = none :=
                invFlag_cons_none _ _ k p (by simp [List.get?])
              simp [h1, h2]
          | cons c rest =>
            cases q with
            | nil =>
              have hm : marksLeafB (WTree.node i (c :: rest)) rc [] = false := by
                simp [marksLeafB, lookup, children_node]
              simp [invFlag, lookup, info_node, hm]
            | cons k p =>
              have hget := invalidate_children_get (c :: rest) (rect_inter i.rc rc) k
              cases hk : (c :: rest).get? k with
              | none =>
                rw [hk] at hget
                simp only [Option.map_none'] at hget
                have h1 : invFlag (WTree.node i
                    (invalidate_children (c :: rest) (rect_inter i.rc rc)).1) (k :: p)
                    = none := invFlag_cons_none _ _ k p hget
                have h2 : invFlag (WTree.node i (c :: rest)) (k :: p) = none :=
                  invFlag_cons_none _ _ k p hk
                simp [h1, h2]
              | some ck =>
                rw [hk] at hget
                simp only [Option.map_some'] at hget
                have hstep : invFlag (WTree.node i
                    (invalidate_children (c :: rest) (rect_inter i.rc rc)).1) (k :: p)
                    = invFlag (window_invalidate_rect ck (rect_inter i.rc rc)).1 p :=
                  invFlag_cons _ _ k _ p hget
                have hcnt : nodeCount ck ≤ n := by
                  have h1 := nodeCount_mem_le (c :: rest) ck (List.get?_mem hk)
                  rw [nodeCount_node] at h
                  omega
                simp only [hstep, ih ck hcnt (rect_inter i.rc rc) p,
                  invFlag_cons i (c :: rest) k ck p hk,
                  marksLeafB_step i (c :: rest) k ck rc p hv2 hk]

theorem invFlag_invalidate_rect (t : WTree) (rc : rect) (q : List Nat) :
    invFlag (window_invalidate_rect t rc).1 q =
      (invFlag t q).map (fun b => b || marksLeafB t rc q) :=
  invFlag_invalidate_rect_aux (nodeCount t) t (Nat.le_refl _) rc q

theorem map_or_false : ∀ o : Option Bool, o.map (fun b => b || false) = o := by
  intro o; cases o <;> simp

theorem list_set_same {α : Type} : ∀ (l : List α) (k : Nat) (c : α),
    l.get? k = some c → l.set k c = l := by
  intro l
  induction l with
  | nil => intro k c h; simp [List.get?] at h
  | cons a rest ih =>
    intro k c h
    cases k with
    | zero =>
      simp only [List.get?] at h
      injection h with h
      simp [List.set, h]
    | succ k =>
      simp only [List.get?] at h
      simp [List.set, ih k c h]

theorem invFlag_nil (t : WTree) : invFlag t [] = some t.info.invalid := rfl

theorem marksLeafB_nil_of_children (i : WInfo) (c : WTree) (rest : List WTree)
    (rc : rect) : marksLeafB (WTree.node i (c :: rest)) rc [] = false := by
  simp [marksLeafB, lookup, children_node]

theorem marksLeafB_cons_none (i : WInfo) (cs : List WTree) (k : Nat)
    (p : List Nat) (rc : rect) (hk : cs.get? k = none) :
    marksLeafB (WTree.node i cs) rc (k :: p) = false := by
  have h := lookup_cons_none (WTree.node i cs) k p (by rw [children_node]; exact hk)
  simp [marksLeafB, h]

theorem invalidate_children_marked : ∀ (cs : List WTree) (rc : rect),
    ((invalidate_children cs rc).2 = true ↔
      ∃ k c, cs.get? k = some c ∧ (window_invalidate_rect c rc).2 = true) := by
  intro cs
  induction cs with
  | nil =>
    intro rc
    rw [invalidate_children_nil]
    constructor
    · intro h; cases h
    · rintro ⟨k, c, hk, _⟩; simp [List.get?] at hk
  | cons c rest ih =>
    intro rc
    rw [invalidate_children_cons]
    simp only [Bool.or_eq_true]
    constructor
    · rintro (h | h)
      · exact ⟨0, c, rfl, h⟩
      · obtain ⟨k, c2, hk, hc2⟩ := (ih rc).mp h
        exact ⟨k + 1, c2, hk, hc2⟩
    · rintro ⟨k, c2, hk, hc2⟩
      cases k with
      | zero =>
        simp only [List.get?] at hk
        injection hk with hk
        subst hk
        exact Or.inl hc2
      | succ k =>
        simp only [List.get?] at hk
        exact Or.inr ((ih rc).mpr ⟨k, c2, hk, hc2⟩)

theorem invalidate_rect_marked_iff_aux : ∀ (n : Nat) (t : WTree), nodeCount t ≤ n →
    ∀ rc, ((window_invalidate_rect t rc).2 = true ↔
      ∃ q, marksLeafB t rc q = true) := by
  intro n
  induction n with
  | zero => intro t h; have := nodeCount_pos t; omega
  | succ n ih =>
    intro t h rc
    cases t with
    | node i cs =>
      rw [window_invalidate_rect_node]
      by_cases hv : i.visible = false
      · rw [if_pos hv]
        constructor
        · intro hfalse; cases hfalse
        · rintro ⟨q, hq⟩
          rw [marksLeafB_invisible i cs rc q hv] at hq
          cases hq
      · have hv2 : i.visible = true := by revert hv; cases i.visible <;> simp
        rw [if_neg hv]
        by_cases he : rect_empty (rect_inter i.rc rc) = true
        · rw [if_pos he]
          constructor
          · intro hfalse; cases hfalse
          · rintro ⟨q, hq⟩
            rw [marksLeafB_empty i cs rc q he] at hq
            cases hq
        · rw [if_neg he]
          cases cs with
          | nil =>
            constructor
            · intro _
              refine ⟨[], ?_⟩
              simp only [marksLeafB, lookup, infosAlong]
              simp only [children_node, info_node, List.isEmpty_nil, List.all_cons,
                List.all_nil, hv2, Bool.and_true, Bool.true_and, clipFold_cons]
              have hne : rect_empty (clipFold (rect_inter rc i.rc) []) = false := by
                simp only [clipFold, List.foldl_nil]
                rw [rect_inter_comm]
                revert he
                cases rect_empty (rect_inter i.rc rc) <;> simp
              simp [hne]
            · intro _; rfl
          | cons c rest =>
            constructor
            · intro hm
              obtain ⟨k, ck, hk, hck⟩ := (invalidate_children_marked (c :: rest)
                (rect_inter i.rc rc)).mp hm
              have hcnt : nodeCount ck ≤ n := by
                have h1 := nodeCount_mem_le (c :: rest) ck (List.get?_mem hk)
                rw [nodeCount_node] at h
                omega
              obtain ⟨p, hp⟩ := (ih ck hcnt (rect_inter i.rc rc)).mp hck
              refine ⟨k :: p, ?_⟩
              rw [marksLeafB_step i (c :: rest) k ck rc p hv2 hk]
              exact hp
            · rintro ⟨q, hq⟩
              cases q with
              | nil => rw [marksLeafB_nil_of_children] at hq; cases hq
              | cons k p =>
                cases hk : (c :: rest).get? k with
                | none => rw [marksLeafB_cons_none i (c :: rest) k p rc hk] at hq; cases hq
                | some ck =>
                  rw [marksLeafB_step i (c :: rest) k ck rc p hv2 hk] at hq
                  have hcnt : nodeCount ck ≤ n := by
                    have h1 := nodeCount_mem_le (c :: rest) ck (List.get?_mem hk)
                    rw [nodeCount_node] at h
                    omega
                  exact (invalidate_children_marked (c :: rest)
                    (rect_inter i.rc rc)).mpr
                    ⟨k, ck, hk, (ih ck hcnt (rect_inter i.rc rc)).mpr ⟨p, hq⟩⟩

theorem invalidate_rect_marked_iff (t : WTree) (rc : rect) :
    ((window_invalidate_rect t rc).2 = true ↔ ∃ q, marksLeafB t rc q = true) :=
  invalidate_rect_marked_iff_aux (nodeCount t) t (Nat.le_refl _) rc

theorem invFlag_invalidate_at_full : ∀ (pp : List Nat) (t sub : WTree) (rc : rect),
    lookup t pp = some sub → ∀ q,
    invFlag (invalidate_at t pp rc).1 q =
      (invFlag t q).map (fun b => b ||
        (match stripPre pp q with
         | some q2 => marksLeafB sub rc q2
         | none => false)) := by
  intro pp
  induction pp with
  | nil =>
    intro t sub rc hsub q
    rw [lookup] at hsub
    injection hsub with hsub
    subst hsub
    simpa [stripPre] using invFlag_invalidate_rect t rc q
  | cons k pp ih =>
    intro t sub rc hsub q
    cases t with
    | node i cs =>
      cases hk : cs.get? k with
      | none =>
        rw [lookup_cons_none (WTree.node i cs) k _ (by rw [children_node]; exact hk)]
          at hsub
        cases hsub
      | some c =>
        have hlk : lookup c pp = some sub := by
          rw [lookup_cons (WTree.node i cs) k pp c
            (by rw [children_node]; exact hk)] at hsub
          exact hsub
        have hres : invalidate_at (WTree.node i cs) (k :: pp) rc =
            (WTree.node i (cs.set k (invalidate_at c pp rc).1),
             (invalidate_at c pp rc).2) := by
          simp only [invalidate_at, children_node, info_node, hk]
        rw [hres]
        cases q with
        | nil =>
          simp [invFlag_nil, info_node, stripPre]
        | cons j q2 =>
          by_cases hj : k = j
          · subst hj
            have hget : (cs.set k (invalidate_at c pp rc).1).get? k =
                some (invalidate_at c pp rc).1 := get_set_same cs k c _ hk
            rw [invFlag_cons i _ k _ q2 hget, ih c sub rc hlk q2,
              invFlag_cons i cs k c q2 hk]
            simp [stripPre]
          · have hget : (cs.set k (invalidate_at c pp rc).1).get? j = cs.get? j :=
              get_set_other cs k j _ (fun h => hj h.symm)
            have hstrip : stripPre (k :: pp) (j :: q2) = none := by
              simp [stripPre, hj]
            rw [hstrip]
            cases hcj : cs.get? j with
            | none =>
              rw [invFlag_cons_none i _ j q2 (hget.trans hcj),
                invFlag_cons_none i cs j q2 hcj]
              rfl
            | some cj =>
              rw [invFlag_cons i _ j cj q2 (hget.trans hcj),
                invFlag_cons i cs j cj q2 hcj]
              exact (map_or_false _).symm

theorem invalidate_at_marked_iff : ∀ (pp : List Nat) (t sub : WTree) (rc : rect),
    lookup t pp = some sub →
    ((invalidate_at t pp rc).2 = true ↔ ∃ q, marksLeafB sub rc q = true) := by
  intro pp
  induction pp with
  | nil =>
    intro t sub rc hsub
    rw [lookup] at hsub
    injection hsub with hsub
    subst hsub
    exact invalidate_rect_marked_iff t rc
  | cons k pp ih =>
    intro t sub rc hsub
    cases t with
    | node i cs =>
      cases hk : cs.get? k with
      | none =>
        rw [lookup_cons_none (WTree.node i cs) k _ (by rw [children_node]; exact hk)]
          at hsub
        cases hsub
      | some c =>
        have hlk : lookup c pp = some sub := by
          rw [lookup_cons (WTree.node i cs) k pp c
            (by rw [children_node]; exact hk)] at hsub
          exact hsub
        have hres : invalidate_at (WTree.node i cs) (k :: pp) rc =
            (WTree.node i (cs.set k (invalidate_at c pp rc).1),
             (invalidate_at c pp rc).2) := by
          simp only [invalidate_at, children_node, info_node, hk]
        rw [hres]
        exact ih c sub rc hlk

theorem clip_ancestors_invisible : ∀ (l : List WInfo) (rc : rect),
    (∃ a ∈ l, a.visible = false) → clip_ancestors rc l = none := by
  intro l
  induction l with
  | nil => rintro rc ⟨a, ha, _⟩; simp at ha
  | cons a rest ih =>
    rintro rc ⟨b, hb, hbv⟩
    rw [clip_ancestors.eq_def]
    by_cases hav : a.visible = false
    · simp [hav]
    · have hav2 : a.visible = true := by revert hav; cases a.visible <;> simp
      simp only [hav2, Bool.not_true, Bool.false_eq_true, if_false]
      have hbrest : b ∈ rest := by
        rcases List.mem_cons.mp hb with h | h
        · subst h; rw [hav2] at hbv; cases hbv
        · exact h
      by_cases he : rect_empty (rect_inter rc a.rc) = true
      · simp [he]
      · simp only [he, if_false]
        exact ih _ ⟨b, hbrest, hbv⟩

theorem clip_ancestors_some_fold : ∀ (l : List WInfo) (rc r : rect),
    clip_ancestors rc l = some r → r = clipFold rc l := by
  intro l
  induction l with
  | nil =>
    intro rc r h
    rw [clip_ancestors.eq_def] at h
    injection h with h
    rw [← h]
    rfl
  | cons a rest ih =>
    intro rc r h
    rw [clip_ancestors.eq_def] at h
    by_cases hav : a.visible = false
    · simp [hav] at h
    · have hav2 : a.visible = true := by revert hav; cases a.visible <;> simp
      simp only [hav2, Bool.not_true, Bool.false_eq_true, if_false] at h
      by_cases he : rect_empty (rect_inter rc a.rc) = true
      · simp [he] at h
      · simp only [he, if_false] at h
        rw [clipFold_cons]
        exact ih _ r h

theorem invalidate_at_empty : ∀ (p : List Nat) (t : WTree) (rc : rect),
    rect_empty rc = true → invalidate_at t p rc = (t, false) := by
  intro p
  induction p with
  | nil =>
    intro t rc he
    cases t with
    | node i cs =>
      rw [invalidate_at, window_invalidate_rect_node]
      have h2 : rect_empty (rect_inter i.rc rc) = true := by
        rw [rect_inter_comm]
        exact rect_empty_inter_mono rc i.rc he
      by_cases hv : i.visible = false
      · rw [if_pos hv]
      · rw [if_neg hv, if_pos h2]
  | cons k p ih =>
    intro t rc he
    cases t with
    | node i cs =>
      simp only [invalidate_at, children_node, info_node]
      cases hk : cs.get? k with
      | none => rfl
      | some c =>
        simp only [ih c rc he, list_set_same cs k c hk]

/-! Claim-level results. -/

mutual

/-- Spec-side checker for the existence of an invalid leaf that is visible and
has all ancestors visible (the condition the spec ties to the aggregate
flag). -/
def visInvalidLeafExists : WTree → Bool
  | WTree.node i cs =>
    i.visible &&
      (match cs with
       | [] => i.invalid
       | c :: rest => visInvalidLeafExistsL (c :: rest))

/-- Forest version of `visInvalidLeafExists`. -/
def visInvalidLeafExistsL : List WTree → Bool
  | [] => false
  | c :: rest => visInvalidLeafExists c || visInvalidLeafExistsL rest

end

/-- State reached by init (80x24) followed by creating one child of the root. -/
def c1_state : MState :=
  (window_create (winmgr_init 80 24) none ⟨5, 5, 25, 25⟩ 0 1).1

/-- C1 counterexample: in the reachable state "init, then create one child of
the root", the root window has a child (it is not a leaf) and still carries
the invalid flag set at init — creating a child never clears the parent's
flag, so the claimed invariant is false. -/
theorem c1_parent_retains_invalid_flag :
    invFlag c1_state.root [] = some true ∧ leafAt c1_state.root [] = some false := by
  decide

/-- C1 (amended): the invalidation engine itself marks only leaves — any window
whose invalid flag is set after `window_invalidate_rect` either already had it
set (a stale flag, e.g. a former leaf that has since gained children) or has
no children.  The strict state invariant "a window with children is never
invalid" fails only through such stale flags, which the paint search ignores. -/
theorem c1_invalidate_rect_marks_only_leaves (t : WTree) (rc : rect) (q : List Nat)
    (hset : invFlag (window_invalidate_rect t rc).1 q = some true) :
    invFlag t q = some true ∨ leafAt t q = some true := by
  rw [invFlag_invalidate_rect t rc q] at hset
  cases hlk : lookup t q with
  | none =>
    rw [invFlag, hlk] at hset
    simp at hset
  | some w =>
    have hfl : invFlag t q = some w.info.invalid := by rw [invFlag, hlk]; rfl
    rw [hfl] at hset
    simp only [Option.map_some'] at hset
    injection hset with hset
    cases (Bool.or_eq_true _ _).mp hset with
    | inl h => left; rw [hfl, h]
    | inr h =>
      right
      have hleaf : w.children.isEmpty = true := by
        simp only [marksLeafB, hlk, Bool.and_eq_true] at h
        exact h.1.1
      rw [leafAt, hlk]
      simp [hleaf]

/-- Single visible leaf used to witness the amended C1 theorem. -/
def c1_demo : WTree := WTree.node ⟨0, ⟨0, 0, 4, 4⟩, true, false, 0, ⟨0, 0, 4, 4⟩⟩ []

theorem c1_invalidate_rect_marks_only_leaves_witness :
    invFlag (window_invalidate_rect c1_demo ⟨0, 0, 4, 4⟩).1 [] = some true ∧
    (invFlag c1_demo [] = some true ∨ leafAt c1_demo [] = some true) :=
  ⟨by decide, c1_invalidate_rect_marks_only_leaves c1_demo ⟨0, 0, 4, 4⟩ [] (by decide)⟩

/-- State reached by init (80x24) followed by hiding the root window. -/
def c3_state : MState := window_set_visible (winmgr_init 80 24) [] false

/-- C3 counterexample: after init the root is an invalid leaf and the
aggregate flag is set; hiding the root leaves the aggregate flag set although
no visible leaf (with visible ancestors) carries the invalid flag any more,
so the claimed iff-invariant is false in a reachable state. -/
theorem c3_aggregate_stale_after_hide :
    c3_state.invalid = true ∧ visInvalidLeafExists c3_state.root = false := by
  decide

/-- C3 (amended): the aggregate flag is not an exact mirror of "some visible
leaf is invalid" across states; what holds is the per-operation law: after a
damage walk the aggregate flag is set iff it was set before or the walk
reached (and marked) at least one leaf that is a leaf, entirely visible along
its path, and whose clipped damage is nonempty. -/
theorem c3_aggregate_or_of_marked_leaf :
    ∀ (t : WTree) (rc : rect) (agg : Bool),
    (agg || (window_invalidate_rect t rc).2) = true ↔
      (agg = true ∨ ∃ q, marksLeafB t rc q = true) := by
  intro t rc agg
  rw [Bool.or_eq_true]
  exact or_congr Iff.rfl (invalidate_rect_marked_iff t rc)

/-- State reached by init (80x24) followed by creating one child of the root
at absolute origin (5,5). -/
def c4_mid : MState :=
  (window_create (winmgr_init 80 24) none ⟨5, 5, 25, 25⟩ 0 1).1

/-- Result of creating a grandchild with parent-relative rectangle (0,0,4,4)
under the child at absolute origin (5,5). -/
def c4_res : MState × List Ev × List Nat :=
  window_create c4_mid (some [0]) ⟨0, 0, 4, 4⟩ 0 2

/-- C4 (code bug evidence): the stored rectangle of the new window is the
clipped absolute rectangle (5,5,9,9), but `newwin` is invoked with the
unclipped parent-relative geometry — 4 rows, 4 cols at y=0, x=0 — so the
allocated backing surface is at (0,0,4,4), not at the clipped absolute
rectangle as the spec requires (and as the code's own "clip to the screen"
comment intends). -/
theorem c4_create_surface_ignores_clipping :
    (lookup c4_res.1.root [0, 0]).map (fun w => (w.info.rc, w.info.surf)) =
      some (⟨5, 5, 9, 9⟩, ⟨0, 0, 4, 4⟩) ∧
    c4_res.2.1 = [Ev.newwinE 4 4 0 0, Ev.handlerE 0 WM_CREATE] ∧
    (⟨0, 0, 4, 4⟩ : rect) ≠ ⟨5, 5, 9, 9⟩ := by
  decide

/-- C9: `window_invalidate` on an invisible window, on a window with an
invisible ancestor, or on a window whose rectangle clipped through its
ancestor chain is empty, leaves the manager state — every invalid flag and
the aggregate flag — completely unchanged. -/
theorem c9_invalidate_aborts_unchanged (s : MState) (p : List Nat) (w : WTree)
    (hw : lookup s.root p = some w)
    (habort : w.info.visible = false ∨
      (∃ a ∈ ancInfos s.root p, a.visible = false) ∨
      rect_empty (clipFold w.info.rc (ancInfos s.root p).reverse) = true) :
    winmgr_invalidate_path s p = s := by
  unfold winmgr_invalidate_path
  rw [hw]
  by_cases hv : w.info.visible = false
  · simp [hv]
  · have hv2 : w.info.visible = true := by revert hv; cases w.info.visible <;> simp
    simp only [hv2, Bool.not_true, Bool.false_eq_true, if_false]
    rcases habort with h | h | h
    · rw [h] at hv2; cases hv2
    · have hc : clip_ancestors w.info.rc (ancInfos s.root p).reverse = none :=
        clip_ancestors_invisible _ _
          (by obtain ⟨a, ha, hav⟩ := h; exact ⟨a, List.mem_reverse.mpr ha, hav⟩)
      rw [hc]
    · cases hclip : clip_ancestors w.info.rc (ancInfos s.root p).reverse with
      | none => rfl
      | some rcT =>
        have hfold := clip_ancestors_some_fold _ _ _ hclip
        have hempty : rect_empty rcT = true := by rw [hfold]; exact h
        simp only [invalidate_at_empty p s.root rcT hempty]
        cases s
        simp

/-- Manager state with an invisible child of the root holding one grandchild,
used to witness the C9 theorem. -/
def c9_demo : MState :=
  ⟨WTree.node ⟨0, ⟨0, 0, 80, 24⟩, true, false, 0, ⟨0, 0, 80, 24⟩⟩
    [WTree.node ⟨1, ⟨0, 0, 10, 10⟩, false, false, 0, ⟨0, 0, 10, 10⟩⟩
      [WTree.node ⟨2, ⟨0, 0, 5, 5⟩, true, false, 0, ⟨0, 0, 5, 5⟩⟩ []]], false⟩

/-- Grandchild of `c9_demo`'s root: visible, but its parent is invisible. -/
def c9_demo_w : WTree := WTree.node ⟨2, ⟨0, 0, 5, 5⟩, true, false, 0, ⟨0, 0, 5, 5⟩⟩ []

theorem c9_invalidate_aborts_unchanged_witness :
    lookup c9_demo.root [0, 0] = some c9_demo_w ∧
    winmgr_invalidate_path c9_demo [0, 0] = c9_demo :=
  ⟨rfl, c9_invalidate_aborts_unchanged c9_demo [0, 0] c9_demo_w rfl
    (Or.inr (Or.inl (by decide)))⟩

/-- C10: passing `none` (the embedding of a NULL `window *`) to
`window_create` (as parent), `window_invalidate`, `window_find_window`,
`window_rect`, or `window_set_handler` behaves exactly as passing the root
window. -/
theorem c10_null_window_means_root :
    ∀ (s : MState) (rc : rect) (h : Nat) (wid : Int) (hh : Nat),
    window_create s none rc h wid = window_create s (some []) rc h wid ∧
    winmgr_invalidate s none = winmgr_invalidate s (some []) ∧
    window_find_window s none wid = window_find_window s (some []) wid ∧
    window_rect s none = window_rect s (some []) ∧
    window_set_handler s none hh = window_set_handler s (some []) hh :=
  fun _ _ _ _ _ => ⟨rfl, rfl, rfl, rfl, rfl⟩

/-! Path modification lemmas used by `window_set_pos` and `window_set_visible`. -/

theorem lookup_modifyAt : ∀ (p : List Nat) (t : WTree) (f : WTree → WTree) (w : WTree),
    lookup t p = some w → lookup (modifyAt t p f) p = some (f w) := by
  intro p
  induction p with
  | nil =>
    intro t f w hw
    rw [lookup] at hw
    injection hw with hw
    subst hw
    rfl
  | cons k p ih =>
    intro t f w hw
    cases t with
    | node i cs =>
      cases hk : cs.get? k with
      | none =>
        rw [lookup_cons_none (WTree.node i cs) k p (by rw [children_node]; exact hk)]
          at hw
        cases hw
      | some c =>
        have hlk : lookup c p = some w := by
          rw [lookup_cons (WTree.node i cs) k p c
            (by rw [children_node]; exact hk)] at hw
          exact hw
        have hmod : modifyAt (WTree.node i cs) (k :: p) f =
            WTree.node i (cs.set k (modifyAt c p f)) := by
          simp only [modifyAt, children_node, info_node, hk]
        rw [hmod,
          lookup_cons (WTree.node i (cs.set k (modifyAt c p f))) k p (modifyAt c p f)
            (by rw [children_node]; exact get_set_same cs k c _ hk)]
        exact ih c f w hlk

theorem modifyAt_cons_eq (t : WTree) (k2 : Nat) (p : List Nat) (f : WTree → WTree) :
    modifyAt t (k2 :: p) f =
      match t.children.get? k2 with
      | some c => WTree.node t.info (t.children.set k2 (modifyAt c p f))
      | none => t := rfl

theorem modifyAt_append : ∀ (pp : List Nat) (t : WTree) (k : Nat) (f : WTree → WTree),
    modifyAt t (pp ++ [k]) f = modifyAt t pp (fun sub => modifyAt sub [k] f) := by
  intro pp
  induction pp with
  | nil => intro t k f; rfl
  | cons j pp ih =>
    intro t k f
    rw [List.cons_append, modifyAt_cons_eq, modifyAt_cons_eq]
    cases hj : t.children.get? j with
    | none => rfl
    | some c =>
      simp only []
      rw [ih c k f]

theorem modifyAt_cons_info (t : WTree) (k : Nat) (p : List Nat) (f : WTree → WTree) :
    (modifyAt t (k :: p) f).info = t.info := by
  cases t with
  | node i cs =>
    simp only [modifyAt, children_node, info_node]
    cases cs.get? k with
    | none => rfl
    | some c => rfl

theorem dropLast_snoc : ∀ (pp : List Nat) (k : Nat), (pp ++ [k]).dropLast = pp := by
  intro pp k
  simp

theorem snoc_ne_nil (pp : List Nat) (k : Nat) : pp ++ [k] ≠ [] := by
  simp

theorem rect_offset_cancel2 (rc : rect) (a b : Int) :
    rect_offset (rect_offset rc a b) (-a) (-b) = rc := by
  simp [rect_offset]

/-- C7: `setPosition` with the window's current parent-relative rectangle makes
no backend call, leaves the manager state untouched, and reports success. -/
theorem c7_setpos_same_rect_noop (s : MState) (p : List Nat) (w : WTree) (r : rect)
    (hw : lookup s.root p = some w)
    (hr : window_rect s (some p) = some r) :
    window_set_pos s p r = (s, [], true) := by
  unfold window_set_pos
  rw [hw]
  cases p with
  | nil =>
    have hwr : w = s.root := by
      rw [lookup] at hw
      injection hw with hw
      exact hw.symm
    have hrr : r = w.info.rc := by
      unfold window_rect at hr
      simp only [Option.getD] at hr
      rw [lookup] at hr
      simp only [if_pos rfl] at hr
      injection hr with hr
      rw [← hr, hwr]
    simp [hrr]
  | cons j p2 =>
    have hne : (j :: p2) ≠ ([] : List Nat) := by simp
    unfold window_rect at hr
    simp only [Option.getD] at hr
    rw [hw] at hr
    simp only [if_neg hne] at hr
    simp only [if_neg hne]
    cases hpar : lookup s.root (j :: p2).dropLast with
    | none =>
      rw [hpar] at hr
      injection hr with hr
      subst hr
      simp
    | some par =>
      rw [hpar] at hr
      injection hr with hr
      subst hr
      simp only [hpar]
      simp only [rect_offset_cancel]
      simp

/-- Two-window state used to witness the C7 theorem. -/
def c7_demo : MState :=
  ⟨WTree.node ⟨0, ⟨0, 0, 80, 24⟩, true, false, 0, ⟨0, 0, 80, 24⟩⟩
    [WTree.node ⟨1, ⟨5, 5, 10, 10⟩, true, false, 0, ⟨5, 5, 10, 10⟩⟩ []], false⟩

/-- Child of `c7_demo`'s root. -/
def c7_demo_w : WTree := WTree.node ⟨1, ⟨5, 5, 10, 10⟩, true, false, 0, ⟨5, 5, 10, 10⟩⟩ []

theorem c7_setpos_same_rect_noop_witness :
    lookup c7_demo.root [0] = some c7_demo_w ∧
    window_rect c7_demo (some [0]) = some ⟨5, 5, 10, 10⟩ ∧
    window_set_pos c7_demo [0] ⟨5, 5, 10, 10⟩ = (c7_demo, [], true) :=
  ⟨rfl, by decide, c7_setpos_same_rect_noop c7_demo [0] c7_demo_w ⟨5, 5, 10, 10⟩ rfl
    (by decide)⟩

/-- C8: the resize entry point invoked when the terminal-size query fails, or
when the queried size equals the root rectangle's size, performs no backend
call at all and leaves the window tree and every invalid flag (and the
aggregate flag) unchanged. -/
theorem c8_resize_noop_when_size_unchanged (h : Nat → List (List Nat)) (fuel : Nat)
    (s : RState) (qsize : Option (Int × Int))
    (hq : qsize = none ∨
      qsize = some (s.ms.root.info.rc.right - s.ms.root.info.rc.left,
                    s.ms.root.info.rc.bottom - s.ms.root.info.rc.top)) :
    winmgr_resize h fuel s qsize = some (⟨s.ms, false⟩, []) := by
  rcases hq with hq | hq
  · subst hq; rfl
  · subst hq
    simp [winmgr_resize]

theorem c8_resize_noop_when_size_unchanged_witness :
    (some ((80 : Int), (24 : Int)) = none ∨
      some ((80 : Int), (24 : Int)) =
        some ((winmgr_init 80 24).root.info.rc.right - (winmgr_init 80 24).root.info.rc.left,
              (winmgr_init 80 24).root.info.rc.bottom - (winmgr_init 80 24).root.info.rc.top)) ∧
    winmgr_resize (fun _ => []) 8 ⟨winmgr_init 80 24, true⟩ (some (80, 24)) =
      some (⟨winmgr_init 80 24, false⟩, []) :=
  ⟨Or.inr (by decide),
   c8_resize_noop_when_size_unchanged (fun _ => []) 8 ⟨winmgr_init 80 24, true⟩
     (some (80, 24)) (Or.inr (by decide))⟩

theorem invFlag_modifyAt (f : WTree → WTree)
    (hf : ∀ x, (f x).info.invalid = x.info.invalid ∧ (f x).children = x.children) :
    ∀ (p : List Nat) (t : WTree) (q : List Nat),
    invFlag (modifyAt t p f) q = invFlag t q := by
  intro p
  induction p with
  | nil =>
    intro t q
    show invFlag (f t) q = invFlag t q
    cases q with
    | nil => rw [invFlag_nil, invFlag_nil, (hf t).1]
    | cons j q2 =>
      cases hj : t.children.get? j with
      | none =>
        unfold invFlag
        rw [lookup_cons_none (f t) j q2 (by rw [(hf t).2]; exact hj),
          lookup_cons_none t j q2 hj]
      | some c =>
        unfold invFlag
        rw [lookup_cons (f t) j q2 c (by rw [(hf t).2]; exact hj),
          lookup_cons t j q2 c hj]
  | cons k p ih =>
    intro t q
    cases t with
    | node i cs =>
      rw [modifyAt_cons_eq]
      cases hk : (WTree.node i cs).children.get? k with
      | none => rfl
      | some c =>
        simp only [children_node] at hk
        simp only [children_node, info_node]
        cases q with
        | nil => rfl
        | cons j q2 =>
          by_cases hj : j = k
          · subst hj
            rw [invFlag_cons i _ j _ q2 (get_set_same cs j c _ hk),
              invFlag_cons i cs j c q2 hk]
            exact ih c q2
          · have hg : (cs.set k (modifyAt c p f)).get? j = cs.get? j :=
              get_set_other cs k j _ hj
            cases hcj : cs.get? j with
            | none =>
              rw [invFlag_cons_none i _ j q2 (hg.trans hcj),
                invFlag_cons_none i cs j q2 hcj]
            | some cj =>
              rw [invFlag_cons i _ j cj q2 (hg.trans hcj),
                invFlag_cons i cs j cj q2 hcj]

/-- C5 (amended): hiding a visible window `w` clears its visibility flag and
then pushes the parent's full rectangle down the parent's subtree with
per-descendant clipping only — no clipping by the parent's own ancestors.
Precisely the leaves of the (post-hide) parent subtree whose whole path is
visible and whose chain intersection with the parent's rectangle is nonempty
become invalid; every other invalid flag is unchanged, and the aggregate flag
is set iff it was set or some such leaf exists. -/
theorem c5_hide_invalidates_parent_rect_downward (s : MState) (pp : List Nat)
    (k : Nat) (w par subh : WTree)
    (hw : lookup s.root (pp ++ [k]) = some w)
    (hvis : w.info.visible = true)
    (hpar : lookup s.root pp = some par)
    (hsub : lookup (modifyAt s.root (pp ++ [k])
        (fun t => WTree.node { t.info with visible := false } t.children)) pp
      = some subh) :
    (∀ q, invFlag (window_set_visible s (pp ++ [k]) false).root q =
        (invFlag s.root q).map (fun b => b ||
          (match stripPre pp q with
           | some q2 => marksLeafB subh par.info.rc q2
           | none => false))) ∧
    visFlag (window_set_visible s (pp ++ [k]) false).root (pp ++ [k]) = some false ∧
    ((window_set_visible s (pp ++ [k]) false).invalid = true ↔
      (s.invalid = true ∨ ∃ q2, marksLeafB subh par.info.rc q2 = true)) := by
  have hf : ∀ x : WTree,
      ((fun t => WTree.node { t.info with visible := false } t.children) x).info.invalid
        = x.info.invalid ∧
      ((fun t => WTree.node { t.info with visible := false } t.children) x).children
        = x.children := fun x => ⟨rfl, rfl⟩
  have h1 : lookup (modifyAt s.root (pp ++ [k])
      (fun t => WTree.node { t.info with visible := false } t.children)) pp =
      some (modifyAt par [k]
        (fun t => WTree.node { t.info with visible := false } t.children)) := by
    rw [modifyAt_append]
    exact lookup_modifyAt pp s.root _ par hpar
  have heqs : subh = modifyAt par [k]
      (fun t => WTree.node { t.info with visible := false } t.children) := by
    have h2 : some subh = some (modifyAt par [k]
        (fun t => WTree.node { t.info with visible := false } t.children)) := by
      rw [← hsub, h1]
    exact Option.some.inj h2
  have hinfo : subh.info = par.info := by
    rw [heqs]
    exact modifyAt_cons_info par k []
      (fun t => WTree.node { t.info with visible := false } t.children)
  have hs2 : window_set_visible s (pp ++ [k]) false =
      ⟨(invalidate_at (modifyAt s.root (pp ++ [k])
          (fun t => WTree.node { t.info with visible := false } t.children)) pp
          subh.info.rc).1,
       s.invalid || (invalidate_at (modifyAt s.root (pp ++ [k])
          (fun t => WTree.node { t.info with visible := false } t.children)) pp
          subh.info.rc).2⟩ := by
    unfold window_set_visible
    rw [hw]
    simp only [Bool.not_false, if_true, hvis, dropLast_snoc,
      if_neg (snoc_ne_nil pp k), hsub]
  refine ⟨?_, ?_, ?_⟩
  · intro q
    rw [hs2]
    show invFlag (invalidate_at (modifyAt s.root (pp ++ [k])
        (fun t => WTree.node { t.info with visible := false } t.children)) pp
        subh.info.rc).1 q = _
    rw [invFlag_invalidate_at_full pp _ subh subh.info.rc hsub q,
      invFlag_modifyAt _ hf (pp ++ [k]) s.root q]
    simp only [hinfo]
  · rw [hs2]
    show visFlag (invalidate_at (modifyAt s.root (pp ++ [k])
        (fun t => WTree.node { t.info with visible := false } t.children)) pp
        subh.info.rc).1 (pp ++ [k]) = some false
    rw [visFlag_of_eraseInv_eq (eraseInv_invalidate_at pp _ subh.info.rc) (pp ++ [k])]
    unfold visFlag
    rw [lookup_modifyAt (pp ++ [k]) s.root _ w hw]
    rfl
  · rw [hs2]
    show (s.invalid || (invalidate_at (modifyAt s.root (pp ++ [k])
        (fun t => WTree.node { t.info with visible := false } t.children)) pp
        subh.info.rc).2) = true ↔ _
    rw [Bool.or_eq_true]
    simp only [hinfo]
    exact or_congr Iff.rfl (invalidate_at_marked_iff pp _ subh par.info.rc hsub)

/-- Two-leaf state (root with children A, B) used to witness the C5 theorem. -/
def c5w_s : MState :=
  ⟨WTree.node ⟨0, ⟨0, 0, 80, 24⟩, true, false, 0, ⟨0, 0, 80, 24⟩⟩
    [WTree.node ⟨1, ⟨0, 0, 40, 24⟩, true, false, 0, ⟨0, 0, 40, 24⟩⟩ [],
     WTree.node ⟨2, ⟨40, 0, 80, 24⟩, true, false, 0, ⟨40, 0, 80, 24⟩⟩ []], false⟩

/-- Child A of `c5w_s`. -/
def c5w_w : WTree := WTree.node ⟨1, ⟨0, 0, 40, 24⟩, true, false, 0, ⟨0, 0, 40, 24⟩⟩ []

/-- Root of `c5w_s`, the parent of the hidden window. -/
def c5w_par : WTree :=
  WTree.node ⟨0, ⟨0, 0, 80, 24⟩, true, false, 0, ⟨0, 0, 80, 24⟩⟩
    [WTree.node ⟨1, ⟨0, 0, 40, 24⟩, true, false, 0, ⟨0, 0, 40, 24⟩⟩ [],
     WTree.node ⟨2, ⟨40, 0, 80, 24⟩, true, false, 0, ⟨40, 0, 80, 24⟩⟩ []]

/-- Root of `c5w_s` after hiding child A. -/
def c5w_subh : WTree :=
  WTree.node ⟨0, ⟨0, 0, 80, 24⟩, true, false, 0, ⟨0, 0, 80, 24⟩⟩
    [WTree.node ⟨1, ⟨0, 0, 40, 24⟩, false, false, 0, ⟨0, 0, 40, 24⟩⟩ [],
     WTree.node ⟨2, ⟨40, 0, 80, 24⟩, true, false, 0, ⟨40, 0, 80, 24⟩⟩ []]

theorem c5_hide_invalidates_parent_rect_downward_witness :
    lookup c5w_s.root ([] ++ [0]) = some c5w_w ∧
    c5w_w.info.visible = true ∧
    lookup c5w_s.root [] = some c5w_par ∧
    lookup (modifyAt c5w_s.root ([] ++ [0])
      (fun t => WTree.node { t.info with visible := false } t.children)) []
      = some c5w_subh ∧
    visFlag (window_set_visible c5w_s ([] ++ [0]) false).root ([] ++ [0]) = some false :=
  ⟨rfl, rfl, rfl, rfl,
   (c5_hide_invalidates_parent_rect_downward c5w_s [] 0 c5w_w c5w_par c5w_subh
     rfl rfl rfl rfl).2.1⟩

/-- State built by the public operations: init (80x24); create q (0,0,10,10)
under the root; create p (0,0,20,10) under q — note p's rectangle protrudes
past q's, since create clips only to the root; create w (0,0,5,10) under p;
create l (15,0,20,10) under p.  l lies outside q's rectangle, so l's own
creation-time invalidation aborted (ancestor clip empty) and l is not
invalid. -/
def c5_pre : MState :=
  (window_create
    ((window_create
      ((window_create
        ((window_create (winmgr_init 80 24) none ⟨0, 0, 10, 10⟩ 0 10).1)
        (some [0]) ⟨0, 0, 20, 10⟩ 0 20).1)
      (some [0, 0]) ⟨0, 0, 5, 10⟩ 0 30).1)
    (some [0, 0]) ⟨15, 0, 20, 10⟩ 0 40).1

/-- C5 counterexample: hiding w (path 0,0,0; visible, with visible parent p at
path 0,0) marks the leaf l (path 0,0,1) invalid although l's rectangle
(15,0,20,10) does not intersect the claimed region — p's rectangle
(0,0,20,10) clipped by p's ancestors q (0,0,10,10) and root (0,0,80,24),
which is (0,0,10,10).  The code pushes p's rectangle down without clipping by
p's ancestors, so the claim's "precisely the leaves intersecting that region"
is false. -/
theorem c5_hide_marks_outside_claimed_region :
    visFlag c5_pre.root [0, 0, 0] = some true ∧
    visFlag c5_pre.root [0, 0] = some true ∧
    rcAt c5_pre.root [] = some ⟨0, 0, 80, 24⟩ ∧
    rcAt c5_pre.root [0] = some ⟨0, 0, 10, 10⟩ ∧
    rcAt c5_pre.root [0, 0] = some ⟨0, 0, 20, 10⟩ ∧
    rcAt c5_pre.root [0, 0, 1] = some ⟨15, 0, 20, 10⟩ ∧
    invFlag c5_pre.root [0, 0, 1] = some false ∧
    invFlag (window_set_visible c5_pre [0, 0, 0] false).root [0, 0, 1] = some true ∧
    rect_empty (rect_inter ⟨15, 0, 20, 10⟩
      (rect_inter (rect_inter ⟨0, 0, 20, 10⟩ ⟨0, 0, 10, 10⟩) ⟨0, 0, 80, 24⟩)) = true := by
  decide

theorem window_rect_snoc (s2 : MState) (pp : List Nat) (k : Nat) (w2 p2 : WTree)
    (hw2 : lookup s2.root (pp ++ [k]) = some w2)
    (hp2 : lookup s2.root pp = some p2) :
    window_rect s2 (some (pp ++ [k])) =
      some (rect_offset w2.info.rc (-p2.info.rc.left) (-p2.info.rc.top)) := by
  unfold window_rect
  simp only [Option.getD_some]
  rw [hw2]
  simp only [if_neg (snoc_ne_nil pp k), dropLast_snoc, hp2]

theorem rcAt_some_exists {t : WTree} {q : List Nat} {rc : rect}
    (h : rcAt t q = some rc) : ∃ z, lookup t q = some z ∧ z.info.rc = rc := by
  unfold rcAt at h
  cases hl : lookup t q with
  | none => rw [hl] at h; cases h
  | some z =>
    rw [hl] at h
    simp only [Option.map_some'] at h
    injection h with h
    exact ⟨z, rfl, h⟩

theorem window_rect_after_modify_invalidate (s0 : WTree) (pp : List Nat) (k : Nat)
    (w par : WTree) (f : WTree → WTree) (u : rect) (agg : Bool)
    (hw : lookup s0 (pp ++ [k]) = some w)
    (hpar : lookup s0 pp = some par) :
    window_rect ⟨(invalidate_at (modifyAt s0 (pp ++ [k]) f) pp u).1, agg⟩
        (some (pp ++ [k])) =
      some (rect_offset (f w).info.rc (-par.info.rc.left) (-par.info.rc.top)) := by
  have h1 : lookup (modifyAt s0 (pp ++ [k]) f) (pp ++ [k]) = some (f w) :=
    lookup_modifyAt (pp ++ [k]) s0 f w hw
  have h2 : lookup (modifyAt s0 (pp ++ [k]) f) pp = some (modifyAt par [k] f) := by
    rw [modifyAt_append]
    exact lookup_modifyAt pp s0 _ par hpar
  have he := eraseInv_invalidate_at pp (modifyAt s0 (pp ++ [k]) f) u
  have hrc1 : rcAt (invalidate_at (modifyAt s0 (pp ++ [k]) f) pp u).1 (pp ++ [k]) =
      some (f w).info.rc := by
    rw [rcAt_of_eraseInv_eq he (pp ++ [k])]
    unfold rcAt
    rw [h1]
    rfl
  have hrc2 : rcAt (invalidate_at (modifyAt s0 (pp ++ [k]) f) pp u).1 pp =
      some par.info.rc := by
    rw [rcAt_of_eraseInv_eq he pp]
    unfold rcAt
    rw [h2]
    simp only [Option.map_some']
    rw [modifyAt_cons_info par k [] f]
  obtain ⟨w2, hw2, hw2rc⟩ := rcAt_some_exists hrc1
  obtain ⟨p2, hp2, hp2rc⟩ := rcAt_some_exists hrc2
  rw [window_rect_snoc ⟨(invalidate_at (modifyAt s0 (pp ++ [k]) f) pp u).1, agg⟩
    pp k w2 p2 hw2 hp2, hw2rc, hp2rc]

/-- C6 (amended): after a successful `setPosition(w, r)` on a non-root window,
`relativeRect(w)` returns `r` unchanged when the absolute version of `r`
(offset by the parent's origin) equals the current rectangle (the no-op
path), and otherwise returns the absolute version of `r` intersected with the
root's rectangle and translated back to parent coordinates — i.e. the clip
happens in absolute coordinates, not on the parent-relative `r` itself. -/
theorem c6_setpos_window_rect_roundtrip (s : MState) (pp : List Nat) (k : Nat)
    (w par : WTree) (r : rect)
    (hw : lookup s.root (pp ++ [k]) = some w)
    (hpar : lookup s.root pp = some par) :
    (window_set_pos s (pp ++ [k]) r).2.2 = true ∧
    window_rect (window_set_pos s (pp ++ [k]) r).1 (some (pp ++ [k])) =
      some (if rect_offset r par.info.rc.left par.info.rc.top = w.info.rc
            then r
            else rect_offset
              (rect_inter (rect_offset r par.info.rc.left par.info.rc.top)
                s.root.info.rc)
              (-par.info.rc.left) (-par.info.rc.top)) := by
  unfold window_set_pos
  rw [hw]
  simp only [if_neg (snoc_ne_nil pp k), dropLast_snoc, hpar]
  by_cases heq : w.info.rc = rect_offset r par.info.rc.left par.info.rc.top
  · rw [if_pos heq]
    refine ⟨rfl, ?_⟩
    rw [if_pos heq.symm]
    rw [window_rect_snoc s pp k w par hw hpar, heq, rect_offset_cancel2]
  · rw [if_neg heq]
    refine ⟨rfl, ?_⟩
    conv_rhs => rw [if_neg (fun hh => heq hh.symm)]
    rw [window_rect_after_modify_invalidate s.root pp k w par _ _ _ hw hpar]
    rfl

/-- Three-level state (root, child at (5,5,25,25), grandchild at (5,5,10,10))
used to witness the C6 theorem. -/
def c6w_s : MState :=
  ⟨WTree.node ⟨0, ⟨0, 0, 80, 24⟩, true, false, 0, ⟨0, 0, 80, 24⟩⟩
    [WTree.node ⟨1, ⟨5, 5, 25, 25⟩, true, false, 0, ⟨5, 5, 25, 25⟩⟩
      [WTree.node ⟨2, ⟨5, 5, 10, 10⟩, true, false, 0, ⟨5, 5, 10, 10⟩⟩ []]], false⟩

/-- Grandchild of `c6w_s`. -/
def c6w_w : WTree := WTree.node ⟨2, ⟨5, 5, 10, 10⟩, true, false, 0, ⟨5, 5, 10, 10⟩⟩ []

/-- Middle window of `c6w_s`, the parent of `c6w_w`. -/
def c6w_par : WTree :=
  WTree.node ⟨1, ⟨5, 5, 25, 25⟩, true, false, 0, ⟨5, 5, 25, 25⟩⟩
    [WTree.node ⟨2, ⟨5, 5, 10, 10⟩, true, false, 0, ⟨5, 5, 10, 10⟩⟩ []]

theorem c6_setpos_window_rect_roundtrip_witness :
    lookup c6w_s.root ([0] ++ [0]) = some c6w_w ∧
    lookup c6w_s.root [0] = some c6w_par ∧
    ((window_set_pos c6w_s ([0] ++ [0]) ⟨0, 0, 100, 100⟩).2.2 = true ∧
     window_rect (window_set_pos c6w_s ([0] ++ [0]) ⟨0, 0, 100, 100⟩).1
         (some ([0] ++ [0])) =
       some (if rect_offset ⟨0, 0, 100, 100⟩ c6w_par.info.rc.left c6w_par.info.rc.top
                = c6w_w.info.rc
             then ⟨0, 0, 100, 100⟩
             else rect_offset
               (rect_inter (rect_offset ⟨0, 0, 100, 100⟩ c6w_par.info.rc.left
                 c6w_par.info.rc.top) c6w_s.root.info.rc)
               (-c6w_par.info.rc.left) (-c6w_par.info.rc.top))) :=
  ⟨rfl, rfl,
   c6_setpos_window_rect_roundtrip c6w_s [0] 0 c6w_w c6w_par ⟨0, 0, 100, 100⟩ rfl rfl⟩

/-- State built by the public operations: init (80x24); create q at (5,5,25,25)
under the root; create w at parent-relative (0,0,5,5) under q, so w's
absolute rectangle is (5,5,10,10). -/
def c6_pre : MState :=
  (window_create
    ((window_create (winmgr_init 80 24) none ⟨5, 5, 25, 25⟩ 0 1).1)
    (some [0]) ⟨0, 0, 5, 5⟩ 0 2).1

/-- C6 counterexample: `setPosition(w, (0,0,100,100))` on the grandchild w of
a parent at absolute origin (5,5) succeeds, and `relativeRect(w)` afterwards
is (0,0,75,19) — the absolute rectangle (5,5,105,105) clipped to the root
(5,5,80,24) translated back — which differs from "r clipped to root bounds"
(0,0,100,100) ∩ (0,0,80,24) = (0,0,80,24).  The claimed round-trip equality
is therefore false. -/
theorem c6_setpos_rect_not_claim_clip :
    (window_set_pos c6_pre [0, 0] ⟨0, 0, 100, 100⟩).2.2 = true ∧
    window_rect (window_set_pos c6_pre [0, 0] ⟨0, 0, 100, 100⟩).1 (some [0, 0]) =
      some ⟨0, 0, 75, 19⟩ ∧
    rect_inter ⟨0, 0, 100, 100⟩ ⟨0, 0, 80, 24⟩ = ⟨0, 0, 80, 24⟩ ∧
    rcAt c6_pre.root [] = some ⟨0, 0, 80, 24⟩ ∧
    (⟨0, 0, 75, 19⟩ : rect) ≠ ⟨0, 0, 80, 24⟩ := by
  decide

/-! Counting lemmas for the scheduler termination argument. -/

theorem nodeCountL_nil : nodeCountL [] = 0 := by rw [nodeCountL.eq_def]

theorem nodeCountL_cons (c : WTree) (rest : List WTree) :
    nodeCountL (c :: rest) = nodeCount c + nodeCountL rest := by
  rw [nodeCountL.eq_def]

theorem invalidCountL_nil : invalidCountL [] = 0 := by rw [invalidCountL.eq_def]

theorem invalidCountL_cons (c : WTree) (rest : List WTree) :
    invalidCountL (c :: rest) = invalidCount c + invalidCountL rest := by
  rw [invalidCountL.eq_def]

theorem invalidCountL_le_nodeCountL : ∀ cs : List WTree,
    (∀ c ∈ cs, invalidCount c ≤ nodeCount c) → invalidCountL cs ≤ nodeCountL cs := by
  intro cs
  induction cs with
  | nil => intro _; rw [invalidCountL_nil, nodeCountL_nil]
  | cons c rest ih =>
    intro hall
    rw [invalidCountL_cons, nodeCountL_cons]
    have h1 := hall c (List.mem_cons_self c rest)
    have h2 := ih (fun x hx => hall x (List.mem_cons_of_mem c hx))
    omega

theorem invalidCount_le_nodeCount_aux : ∀ (n : Nat) (t : WTree), nodeCount t ≤ n →
    invalidCount t ≤ nodeCount t := by
  intro n
  induction n with
  | zero => intro t h; have := nodeCount_pos t; omega
  | succ n ih =>
    intro t h
    cases t with
    | node i cs =>
      rw [invalidCount_node, nodeCount_node]
      rw [nodeCount_node] at h
      have hlist : invalidCountL cs ≤ nodeCountL cs := by
        apply invalidCountL_le_nodeCountL
        intro c hc
        have := nodeCount_mem_le cs c hc
        exact ih c (by omega)
      by_cases hi : i.invalid = true <;> simp [hi] <;> omega

theorem invalidCount_le_nodeCount (t : WTree) : invalidCount t ≤ nodeCount t :=
  invalidCount_le_nodeCount_aux (nodeCount t) t (Nat.le_refl _)

theorem nodeCountL_eraseInvL : ∀ cs : List WTree,
    (∀ c ∈ cs, nodeCount (eraseInv c) = nodeCount c) →
    nodeCountL (eraseInvL cs) = nodeCountL cs := by
  intro cs
  induction cs with
  | nil => intro _; rfl
  | cons c rest ih =>
    intro hall
    simp only [eraseInvL, nodeCountL_cons]
    rw [hall c (List.mem_cons_self c rest),
      ih (fun x hx => hall x (List.mem_cons_of_mem c hx))]

theorem nodeCount_eraseInv_aux : ∀ (n : Nat) (t : WTree), nodeCount t ≤ n →
    nodeCount (eraseInv t) = nodeCount t := by
  intro n
  induction n with
  | zero => intro t h; have := nodeCount_pos t; omega
  | succ n ih =>
    intro t h
    cases t with
    | node i cs =>
      rw [eraseInv_node, nodeCount_node, nodeCount_node]
      rw [nodeCount_node] at h
      rw [nodeCountL_eraseInvL cs (fun c hc => by
        have := nodeCount_mem_le cs c hc
        exact ih c (by omega))]

theorem nodeCount_eraseInv (t : WTree) : nodeCount (eraseInv t) = nodeCount t :=
  nodeCount_eraseInv_aux (nodeCount t) t (Nat.le_refl _)

theorem nodeCount_of_eraseInv_eq {a b : WTree} (h : eraseInv a = eraseInv b) :
    nodeCount a = nodeCount b := by
  have := congrArg nodeCount h
  rw [nodeCount_eraseInv, nodeCount_eraseInv] at this
  exact this

theorem nodeCount_invalidate_at (t : WTree) (p : List Nat) (rc : rect) :
    nodeCount (invalidate_at t p rc).1 = nodeCount t :=
  nodeCount_of_eraseInv_eq (eraseInv_invalidate_at p t rc)

theorem invalidCountL_set : ∀ (cs : List WTree) (k : Nat) (c x : WTree),
    cs.get? k = some c →
    invalidCountL (cs.set k x) + invalidCount c = invalidCountL cs + invalidCount x := by
  intro cs
  induction cs with
  | nil => intro k c x h; simp [List.get?] at h
  | cons a rest ih =>
    intro k c x h
    cases k with
    | zero =>
      simp only [List.get?] at h
      injection h with h
      subst h
      simp only [List.set, invalidCountL_cons]
      omega
    | succ k =>
      simp only [List.get?] at h
      simp only [List.set, invalidCountL_cons]
      have := ih k c x h
      omega

theorem nodeCountL_set : ∀ (cs : List WTree) (k : Nat) (c x : WTree),
    cs.get? k = some c →
    nodeCountL (cs.set k x) + nodeCount c = nodeCountL cs + nodeCount x := by
  intro cs
  induction cs with
  | nil => intro k c x h; simp [List.get?] at h
  | cons a rest ih =>
    intro k c x h
    cases k with
    | zero =>
      simp only [List.get?] at h
      injection h with h
      subst h
      simp only [List.set, nodeCountL_cons]
      omega
    | succ k =>
      simp only [List.get?] at h
      simp only [List.set, nodeCountL_cons]
      have := ih k c x h
      omega

theorem invalidCount_clear_at : ∀ (p : List Nat) (t w : WTree),
    lookup t p = some w → w.info.invalid = true →
    invalidCount (modifyAt t p clearInvalid) + 1 = invalidCount t := by
  intro p
  induction p with
  | nil =>
    intro t w hw hi
    rw [lookup] at hw
    injection hw with hw
    subst hw
    cases t with
    | node i cs =>
      show invalidCount (clearInvalid (WTree.node i cs)) + 1 = _
      unfold clearInvalid
      rw [invalidCount_node, invalidCount_node]
      simp only [info_node, children_node]
      rw [info_node] at hi
      simp [hi]
      omega
  | cons k p ih =>
    intro t w hw hi
    cases t with
    | node i cs =>
      cases hk : cs.get? k with
      | none =>
        rw [lookup_cons_none (WTree.node i cs) k p (by rw [children_node]; exact hk)]
          at hw
        cases hw
      | some c =>
        have hlk : lookup c p = some w := by
          rw [lookup_cons (WTree.node i cs) k p c
            (by rw [children_node]; exact hk)] at hw
          exact hw
        rw [modifyAt_cons_eq]
        simp only [children_node, info_node, hk]
        rw [invalidCount_node, invalidCount_node]
        have hset := invalidCountL_set cs k c (modifyAt c p clearInvalid) hk
        have hrec := ih c w hlk hi
        omega

theorem nodeCount_clear_at : ∀ (p : List Nat) (t : WTree),
    nodeCount (modifyAt t p clearInvalid) = nodeCount t := by
  intro p
  induction p with
  | nil =>
    intro t
    cases t with
    | node i cs =>
      show nodeCount (clearInvalid (WTree.node i cs)) = _
      unfold clearInvalid
      rw [nodeCount_node, nodeCount_node]
      simp [children_node]
  | cons k p ih =>
    intro t
    cases t with
    | node i cs =>
      rw [modifyAt_cons_eq]
      simp only [children_node, info_node]
      cases hk : cs.get? k with
      | none => rfl
      | some c =>
        rw [nodeCount_node, nodeCount_node]
        have hset := nodeCountL_set cs k c (modifyAt c p clearInvalid) hk
        have hrec := ih c
        omega

theorem find_invalid_list_spec : ∀ (cs : List WTree) (k0 : Nat) (p : List Nat),
    find_invalid_list cs k0 = some p →
    ∃ j c p2, p = (k0 + j) :: p2 ∧ cs.get? j = some c ∧ find_invalid c = some p2 := by
  intro cs
  induction cs with
  | nil => intro k0 p h; rw [find_invalid_list_nil] at h; cases h
  | cons c rest ih =>
    intro k0 p h
    rw [find_invalid_list_cons] at h
    cases hc : find_invalid c with
    | some p2 =>
      rw [hc] at h
      injection h with h
      refine ⟨0, c, p2, ?_, rfl, hc⟩
      rw [← h]
      simp
    | none =>
      rw [hc] at h
      obtain ⟨j, c2, p2, hp, hg, hf⟩ := ih (k0 + 1) p h
      refine ⟨j + 1, c2, p2, ?_, ?_, hf⟩
      · rw [hp]; congr 1; omega
      · simpa [List.get?] using hg

theorem find_invalid_spec : ∀ (n : Nat) (t : WTree), nodeCount t ≤ n →
    ∀ p, find_invalid t = some p →
    ∃ w, lookup t p = some w ∧ w.info.invalid = true := by
  intro n
  induction n with
  | zero => intro t h; have := nodeCount_pos t; omega
  | succ n ih =>
    intro t h p hf
    cases t with
    | node i cs =>
      rw [find_invalid_node] at hf
      by_cases hv : i.visible = false
      · rw [if_pos hv] at hf; cases hf
      · rw [if_neg hv] at hf
        cases cs with
        | nil =>
          by_cases hi : i.invalid = true
          · rw [if_pos hi] at hf
            injection hf with hf
            subst hf
            exact ⟨WTree.node i [], rfl, by rw [info_node]; exact hi⟩
          · rw [if_neg hi] at hf; cases hf
        | cons c rest =>
          obtain ⟨j, c2, p2, hp, hg, hf2⟩ := find_invalid_list_spec (c :: rest) 0 p hf
          have hcnt : nodeCount c2 ≤ n := by
            have := nodeCount_mem_le (c :: rest) c2 (List.get?_mem hg)
            rw [nodeCount_node] at h
            omega
          obtain ⟨w, hw, hwi⟩ := ih c2 hcnt p2 hf2
          refine ⟨w, ?_, hwi⟩
          rw [hp]
          have : (0 : Nat) + j = j := by omega
          rw [this]
          rw [lookup_cons (WTree.node i (c :: rest)) j p2 c2
            (by rw [children_node]; exact hg)]
          exact hw

theorem find_invalid_full (t : WTree) (p : List Nat) (hf : find_invalid t = some p) :
    ∃ w, lookup t p = some w ∧ w.info.invalid = true :=
  find_invalid_spec (nodeCount t) t (Nat.le_refl _) p hf

/-! Preservation through the manager-level invalidation and handler effects. -/

theorem nodeCount_winmgr_invalidate_path (s : MState) (p : List Nat) :
    nodeCount (winmgr_invalidate_path s p).root = nodeCount s.root := by
  unfold winmgr_invalidate_path
  cases hl : lookup s.root p with
  | none => rfl
  | some w =>
    by_cases hv : w.info.visible = false
    · simp [hv]
    · have hv2 : w.info.visible = true := by revert hv; cases w.info.visible <;> simp
      simp only [hv2, Bool.not_true, Bool.false_eq_true, if_false]
      cases hc : clip_ancestors w.info.rc (ancInfos s.root p).reverse with
      | none => rfl
      | some rcT => exact nodeCount_invalidate_at s.root p rcT

theorem invalid_winmgr_invalidate_path (s : MState) (p : List Nat)
    (hs : s.invalid = true) : (winmgr_invalidate_path s p).invalid = true := by
  unfold winmgr_invalidate_path
  cases hl : lookup s.root p with
  | none => exact hs
  | some w =>
    by_cases hv : w.info.visible = false
    · simp [hv, hs]
    · have hv2 : w.info.visible = true := by revert hv; cases w.info.visible <;> simp
      simp only [hv2, Bool.not_true, Bool.false_eq_true, if_false]
      cases hc : clip_ancestors w.info.rc (ancInfos s.root p).reverse with
      | none => exact hs
      | some rcT => simp [hs]

theorem applyEffects_nil (s : MState) : applyEffects s [] = s := rfl

theorem applyEffects_cons (s : MState) (e : List Nat) (ps : List (List Nat)) :
    applyEffects s (e :: ps) = applyEffects (winmgr_invalidate_path s e) ps := rfl

theorem nodeCount_applyEffects : ∀ (ps : List (List Nat)) (s : MState),
    nodeCount (applyEffects s ps).root = nodeCount s.root := by
  intro ps
  induction ps with
  | nil => intro s; rfl
  | cons e ps ih =>
    intro s
    rw [applyEffects_cons, ih, nodeCount_winmgr_invalidate_path]

theorem invalid_applyEffects : ∀ (ps : List (List Nat)) (s : MState),
    s.invalid = true → (applyEffects s ps).invalid = true := by
  intro ps
  induction ps with
  | nil => intro s hs; exact hs
  | cons e ps ih =>
    intro s hs
    rw [applyEffects_cons]
    exact ih _ (invalid_winmgr_invalidate_path s e hs)

/-- Fuel-style cost of the remaining handler invalidation budget: with `r`
paints left before the budget index `N` is reached, each pending paint `c`
contributes one unit plus `size` units per invalidation it performs. -/
def costH (h : Nat → List (List Nat)) (sz : Nat) : Nat → Nat → Nat
  | _, 0 => 0
  | c, r + 1 => (h c).length * sz + 1 + costH h sz (c + 1) r

/-- Termination measure of a drain: pending invalid flags plus the cost of the
remaining handler budget. -/
def updMeasure (h : Nat → List (List Nat)) (N : Nat) (u : UState) : Nat :=
  invalidCount u.ms.root + costH h (nodeCount u.ms.root) u.cnt (N - u.cnt)

theorem upd_go_not_invalid (h : Nat → List (List Nat)) (n : Nat) (u : UState)
    (pa co : Nat) (hni : u.ms.invalid = false) :
    winmgr_update_go h n u pa co = some (u, pa, co) := by
  cases n <;> simp [winmgr_update_go, hni]

theorem upd_go_step_paint (h : Nat → List (List Nat)) (n : Nat) (u : UState)
    (pa co : Nat) (hinv : u.ms.invalid = true) (p : List Nat)
    (hf : find_invalid u.ms.root = some p) :
    winmgr_update_go h (n + 1) u pa co =
      winmgr_update_go h n
        ⟨applyEffects ⟨modifyAt u.ms.root p clearInvalid, u.ms.invalid⟩ (h u.cnt),
         u.cnt + 1⟩ (pa + 1) co := by
  simp [winmgr_update_go, hinv, hf]

theorem upd_go_step_commit (h : Nat → List (List Nat)) (n : Nat) (u : UState)
    (pa co : Nat) (hinv : u.ms.invalid = true)
    (hf : find_invalid u.ms.root = none) :
    winmgr_update_go h (n + 1) u pa co =
      winmgr_update_go h n ⟨⟨u.ms.root, false⟩, u.cnt⟩ pa (co + 1) := by
  simp [winmgr_update_go, hinv, hf]

theorem costH_zero (h : Nat → List (List Nat)) (sz c : Nat) :
    costH h sz c 0 = 0 := rfl

theorem costH_succ (h : Nat → List (List Nat)) (sz c r : Nat) :
    costH h sz c (r + 1) = (h c).length * sz + 1 + costH h sz (c + 1) r := rfl

theorem upd_paint_measure (h : Nat → List (List Nat)) (N : Nat)
    (hfin : ∀ k, N ≤ k → h k = []) (u : UState) (p : List Nat)
    (hf : find_invalid u.ms.root = some p) :
    updMeasure h N
      ⟨applyEffects ⟨modifyAt u.ms.root p clearInvalid, u.ms.invalid⟩ (h u.cnt),
       u.cnt + 1⟩ < updMeasure h N u := by
  obtain ⟨w, hw, hwi⟩ := find_invalid_full u.ms.root p hf
  have hdec := invalidCount_clear_at p u.ms.root w hw hwi
  have hn1 : nodeCount (modifyAt u.ms.root p clearInvalid) = nodeCount u.ms.root :=
    nodeCount_clear_at p u.ms.root
  have hn2 : nodeCount (applyEffects ⟨modifyAt u.ms.root p clearInvalid, u.ms.invalid⟩
      (h u.cnt)).root = nodeCount u.ms.root := by
    rw [nodeCount_applyEffects]
    exact hn1
  have hble : invalidCount (applyEffects
      ⟨modifyAt u.ms.root p clearInvalid, u.ms.invalid⟩ (h u.cnt)).root ≤
      nodeCount u.ms.root := by
    rw [← hn2]
    exact invalidCount_le_nodeCount _
  unfold updMeasure
  dsimp only
  rw [hn2]
  by_cases hcN : u.cnt < N
  · have hr : N - u.cnt = (N - (u.cnt + 1)) + 1 := by omega
    rw [hr, costH_succ]
    by_cases hce : h u.cnt = []
    · have heff : applyEffects ⟨modifyAt u.ms.root p clearInvalid, u.ms.invalid⟩
          (h u.cnt) = ⟨modifyAt u.ms.root p clearInvalid, u.ms.invalid⟩ := by
        rw [hce]
        rfl
      rw [heff]
      simp only [hce, List.length_nil]
      omega
    · have hlen : 1 ≤ (h u.cnt).length := by
        cases hx : h u.cnt with
        | nil => exact absurd hx hce
        | cons a b => simp
      have hmul : nodeCount u.ms.root ≤ (h u.cnt).length * nodeCount u.ms.root :=
        Nat.le_mul_of_pos_left _ hlen
      omega
  · have hr0 : N - u.cnt = 0 := by omega
    have hr1 : N - (u.cnt + 1) = 0 := by omega
    have hce : h u.cnt = [] := hfin u.cnt (by omega)
    have heff : applyEffects ⟨modifyAt u.ms.root p clearInvalid, u.ms.invalid⟩
        (h u.cnt) = ⟨modifyAt u.ms.root p clearInvalid, u.ms.invalid⟩ := by
      rw [hce]
      rfl
    rw [heff, hr0, hr1, costH_zero, costH_zero]
    simp only []
    omega

theorem upd_aux (h : Nat → List (List Nat)) (N : Nat)
    (hfin : ∀ k, N ≤ k → h k = []) :
    ∀ (m : Nat) (u : UState) (pa co : Nat), u.ms.invalid = true →
    updMeasure h N u ≤ m →
    ∃ n u2 pa2, winmgr_update_go h n u pa co = some (u2, pa2, co + 1) ∧
      u2.ms.invalid = false := by
  intro m
  induction m with
  | zero =>
    intro u pa co hinv hm
    cases hf : find_invalid u.ms.root with
    | none =>
      refine ⟨2, ⟨⟨u.ms.root, false⟩, u.cnt⟩, pa, ?_, rfl⟩
      rw [show (2 : Nat) = 1 + 1 from rfl,
        upd_go_step_commit h 1 u pa co hinv hf,
        upd_go_not_invalid h 1 _ pa (co + 1) rfl]
    | some p =>
      obtain ⟨w, hw, hwi⟩ := find_invalid_full u.ms.root p hf
      have hdec := invalidCount_clear_at p u.ms.root w hw hwi
      have : 1 ≤ updMeasure h N u := by
        unfold updMeasure
        omega
      omega
  | succ m ih =>
    intro u pa co hinv hm
    cases hf : find_invalid u.ms.root with
    | none =>
      refine ⟨2, ⟨⟨u.ms.root, false⟩, u.cnt⟩, pa, ?_, rfl⟩
      rw [show (2 : Nat) = 1 + 1 from rfl,
        upd_go_step_commit h 1 u pa co hinv hf,
        upd_go_not_invalid h 1 _ pa (co + 1) rfl]
    | some p =>
      have hlt := upd_paint_measure h N hfin u p hf
      have hinv2 : (applyEffects ⟨modifyAt u.ms.root p clearInvalid, u.ms.invalid⟩
          (h u.cnt)).invalid = true := by
        apply invalid_applyEffects
        exact hinv
      obtain ⟨n, u2, pa2, hrun, hni⟩ := ih
        ⟨applyEffects ⟨modifyAt u.ms.root p clearInvalid, u.ms.invalid⟩ (h u.cnt),
         u.cnt + 1⟩ (pa + 1) co hinv2 (by omega)
      refine ⟨n + 1, u2, pa2, ?_, hni⟩
      rw [upd_go_step_paint h n u pa co hinv p hf]
      exact hrun

/-- C2 (amended): a drain entered with the aggregate flag set terminates and
issues exactly one commit, provided the paint handlers perform no further
invalidations after some finite number of paint calls (`h k = []` for
`k ≥ N`); afterwards the aggregate flag is clear.  Without that proviso the
claim is false (see the nonterminating counterexample). -/
theorem c2_update_terminates_single_commit (h : Nat → List (List Nat)) (N : Nat)
    (hfin : ∀ k, N ≤ k → h k = []) (u : UState) (hinv : u.ms.invalid = true) :
    ∃ n u2 pa, winmgr_update_go h n u 0 0 = some (u2, pa, 1) ∧
      u2.ms.invalid = false :=
  upd_aux h N hfin (updMeasure h N u) u 0 0 hinv (Nat.le_refl _)

/-- Handler behaviour that never invalidates anything. -/
def c2w_h : Nat → List (List Nat) := fun _ => []

theorem c2_update_terminates_single_commit_witness :
    (∀ k, 0 ≤ k → c2w_h k = []) ∧
    (UState.mk (winmgr_init 80 24) 0).ms.invalid = true ∧
    ∃ n u2 pa, winmgr_update_go c2w_h n ⟨winmgr_init 80 24, 0⟩ 0 0 =
        some (u2, pa, 1) ∧ u2.ms.invalid = false :=
  ⟨fun _ _ => rfl, by decide,
   c2_update_terminates_single_commit c2w_h 0 (fun _ _ => rfl)
     ⟨winmgr_init 80 24, 0⟩ (by decide)⟩

/-- Handler behaviour whose every paint callback re-invalidates the root
window (`window_invalidate(NULL)`), as a host's paint handler may do. -/
def c2bad_h : Nat → List (List Nat) := fun _ => [[]]

/-- The root tree right after init: a visible invalid leaf at full size. -/
def c2bad_tree : WTree :=
  WTree.node ⟨0, ⟨0, 0, 80, 24⟩, true, true, 0, ⟨0, 0, 80, 24⟩⟩ []

/-- Termination of a drain started from `u` under handler behaviour `h`: some
fuel makes the `winmgr_update` loop reach its exit. -/
def updateTerminates (h : Nat → List (List Nat)) (u : UState) : Prop :=
  ∃ n, (winmgr_update_go h n u 0 0).isSome

theorem c2bad_loop : ∀ (n c pa co : Nat),
    winmgr_update_go c2bad_h n ⟨⟨c2bad_tree, true⟩, c⟩ pa co = none := by
  intro n
  induction n with
  | zero => intro c pa co; rfl
  | succ n ih =>
    intro c pa co
    show winmgr_update_go c2bad_h n ⟨⟨c2bad_tree, true⟩, c + 1⟩ (pa + 1) co = none
    exact ih (c + 1) (pa + 1) co

/-- C2 counterexample: from the reachable post-init state (root an invalid
leaf, aggregate flag set), a paint handler that re-invalidates its own window
on every paint call makes the `winmgr_update` loop run forever — no fuel
suffices — so the unconditional termination claim is false. -/
theorem c2_update_nonterminating_handler :
    ¬ updateTerminates c2bad_h ⟨winmgr_init 80 24, 0⟩ := by
  rintro ⟨n, hn⟩
  have hstate : winmgr_init 80 24 = ⟨c2bad_tree, true⟩ := rfl
  rw [hstate, c2bad_loop n 0 0 0] at hn
  simp at hn
